import Mathlib

/-!
Shallow embedding of the cpsm fuzzy path matcher (src/src) and proofs about it.

Strings are modelled as lists of byte values (`List Nat`); decoded code points
are also `Nat`.  The tree mixes two revisions of the matcher: the template
matcher of `matcher.h` (driven by `api.h`) and the older `Matcher` of
`matcher.cc` whose `MatchBase` lives in `match.h`.  Both are embedded below;
each definition's doc comment names the source function it translates.
-/

namespace Cpsm

/-- Path separator byte: `path_separator()` in the old revision and
`PlatformPathTraits::is_path_separator` (non-Windows) in the new one both use
the slash character. -/
def path_separator : Nat := 47

/-- ASCII uppercase test: `SimpleStringTraits::is_uppercase` (str_util.h) and
`StringHandler::is_uppercase` (str_util.cc, non-ICU build). -/
def is_uppercase (c : Nat) : Bool := 65 ≤ c && c ≤ 90

/-- ASCII alphanumeric test: `SimpleStringTraits::is_alphanumeric` (str_util.h)
and `StringHandler::is_alphanumeric` (str_util.cc, non-ICU build). -/
def is_alphanumeric (c : Nat) : Bool :=
  (48 ≤ c && c ≤ 57) || (97 ≤ c && c ≤ 122) || (65 ≤ c && c ≤ 90)

/-- ASCII lowering: `SimpleStringTraits::uppercase_to_lowercase` (str_util.h)
and `StringHandler::to_lowercase` (str_util.cc, non-ICU build): `c + ('a'-'A')`. -/
def to_lowercase (c : Nat) : Nat := c + 32

/-- Smartcase: `is_case_sensitive_` is derived in both matcher constructors as
`any_of(query, is_uppercase)` (matcher.cc lines 60-62, matcher.h lines 84-85). -/
def is_case_sensitive (query : List Nat) : Bool := query.any is_uppercase

/-- The transformation both revisions apply to an *item* code point before the
equality test (`Matcher::match_char`, matcher.cc lines 328-338;
`make_item_matchcase` / `scan_match`, matcher.h): when the match is
case-insensitive an uppercase item code point is lowered; query code points are
never transformed. -/
def match_case (cs : Bool) (c : Nat) : Nat :=
  if !cs && is_uppercase c then to_lowercase c else c

/-- `Matcher::match_char` (matcher.cc lines 328-338). -/
def match_char (cs : Bool) (item query : Nat) : Bool :=
  let item' := if !cs then (if is_uppercase item then to_lowercase item else item) else item
  item' == query

/-! ### Path components (path_util.cc) -/

/-- `boost::string_ref::find_first_of('/')`: index of the first separator. -/
def find_sep : List Nat → Option Nat
  | [] => none
  | c :: rest => if c = path_separator then some 0 else (find_sep rest).map (· + 1)

/-- Loop body of `path_components_of` (path_util.cc lines 32-46), with explicit
fuel standing for the loop's progress over the shrinking suffix; the wrapper
supplies `fuel = path.length`, which the loop can never exhaust since every
iteration removes at least one byte. -/
def path_components_go : Nat → List Nat → List (List Nat)
  | _, [] => []
  | 0, _ :: _ => []
  | fuel + 1, c :: rest =>
    match find_sep (c :: rest) with
    | none => [c :: rest]
    | some pos =>
      (c :: rest).take (pos + 1) :: path_components_go fuel ((c :: rest).drop (pos + 1))

/-- `path_components_of` (path_util.cc lines 32-46): split a path into its
components, each including its trailing separator; a final empty piece is not
emitted. -/
def path_components_of (path : List Nat) : List (List Nat) :=
  path_components_go path.length path

/-- `path_distance_between` (path_util.cc lines 48-58): distance between
two component lists. -/
def path_distance_between (x y : List (List Nat)) : Nat :=
  let common := go x y
  x.length + y.length - 2 * common
where
  go : List (List Nat) → List (List Nat) → Nat
    | a :: xs, b :: ys => if a = b then go xs ys + 1 else 0
    | _, _ => 0

/-! ### UTF-8 decoding (str_util.cc lines 30-105) -/

/-- `is_continuation` (str_util.cc line 51): `(b & 0xc0) == 0x80`. -/
def is_continuation (b : Nat) : Bool := (b &&& 0xc0) == 0x80

/-- Loop body of `decode_utf8_string` (str_util.cc lines 30-105), with fuel
standing for loop progress (each iteration consumes 1-4 bytes; the wrapper
passes `fuel = str.length`, which can never run out).  The helper returns the
code points emitted for the leading sequence and the number of bytes consumed.
Note on the source: the `invalid` lambda captures the `b0` declared *before*
the while loop, which is never written and stays 0; the `auto const b0` inside
the loop shadows it.  Ill-formed bytes therefore decode to `0xdc00 + 0`, never
`0xdc00 + byte`. -/
def decode_utf8_go : Nat → List Nat → List Nat
  | _, [] => []
  | 0, _ :: _ => []
  | fuel + 1, b0 :: rest =>
    let lookahead : Nat → Nat := fun n => (b0 :: rest).getD n 0
    let invalid : List Nat × Nat := ([0xdc00 + 0], 1)
    let step : List Nat × Nat :=
      if b0 == 0x00 then invalid
      else if b0 < 0x80 then ([b0], 1)
      else if b0 < 0xc2 then invalid
      else if b0 < 0xe0 then
        let b1 := lookahead 1
        if !is_continuation b1 then invalid
        else ([((b0 &&& 0x1f) <<< 6) ||| (b1 &&& 0x3f)], 2)
      else if b0 < 0xf0 then
        let b1 := lookahead 1
        let b2 := lookahead 2
        if !is_continuation b1 || !is_continuation b2 then invalid
        else if b0 == 0xe0 && b1 < 0xa0 then invalid
        else ([((b0 &&& 0x0f) <<< 12) ||| ((b1 &&& 0x3f) <<< 6) ||| (b2 &&& 0x3f)], 3)
      else if b0 < 0xf5 then
        let b1 := lookahead 1
        let b2 := lookahead 2
        let b3 := lookahead 3
        if !is_continuation b1 || !is_continuation b2 || !is_continuation b3 then invalid
        else if b0 == 0xf0 && b1 < 0x90 then invalid
        else if b0 == 0xf4 && 0x90 ≤ b1 then invalid
        else ([((b0 &&& 0x07) <<< 18) ||| ((b1 &&& 0x3f) <<< 12) |||
               ((b2 &&& 0x3f) <<< 6) ||| (b3 &&& 0x3f)], 4)
      else invalid
    step.1 ++ decode_utf8_go fuel ((b0 :: rest).drop step.2)

/-- `decode_utf8_string` (str_util.cc lines 30-105), emitted code points only. -/
def decode_utf8_string (str : List Nat) : List Nat := decode_utf8_go str.length str

/-! ### The six-field scorer tuple and its packing (match.h; claim C6) -/

/-- `MatchBase` (match.h lines 28-80): the six scoring fields of the six-field
scorer revision. -/
structure MatchBase where
  prefix_score : Nat
  word_prefix_len : Nat
  part_index_sum : Nat
  cur_file_prefix_len : Nat
  path_distance : Nat
  unmatched_len : Nat
  deriving DecidableEq

/-- `operator<(Match const&, Match const&)` (match.h lines 93-115) restricted
to the scoring fields (the source's final fallback compares the items
themselves; the claim is about the field tuples).  True when `l` is a better
match than `r`. -/
def match_base_lt (l r : MatchBase) : Bool :=
  if l.prefix_score ≠ r.prefix_score then decide (l.prefix_score < r.prefix_score)
  else if l.word_prefix_len ≠ r.word_prefix_len then decide (l.word_prefix_len > r.word_prefix_len)
  else if l.part_index_sum ≠ r.part_index_sum then decide (l.part_index_sum < r.part_index_sum)
  else if l.cur_file_prefix_len ≠ r.cur_file_prefix_len then
    decide (l.cur_file_prefix_len > r.cur_file_prefix_len)
  else if l.path_distance ≠ r.path_distance then decide (l.path_distance < r.path_distance)
  else if l.unmatched_len ≠ r.unmatched_len then decide (l.unmatched_len < r.unmatched_len)
  else false

/-- Modelled from the spec: `Scorer::reverse_score` is missing from src (the
old revision's matcher.cc calls it, but the `Scorer` definition is not in the
tree).  Spec section 4.3 step 10: pack `(prefix_score, -word_prefix_len,
parts, -cur_file_prefix_len, path_distance, unmatched_len)` into a 64-bit
reverse score with field widths 31, 3, 8, 6, 6, 8, signs inverted for
maximize-fields, lower is better.  Each field is masked to its width; an
inverted field stores `(2^w - 1) - (x mod 2^w)`. -/
def reverse_score (m : MatchBase) : Nat :=
  (m.prefix_score % 2 ^ 31) * 2 ^ 31 +
  (7 - m.word_prefix_len % 2 ^ 3) * 2 ^ 28 +
  (m.part_index_sum % 2 ^ 8) * 2 ^ 20 +
  (63 - m.cur_file_prefix_len % 2 ^ 6) * 2 ^ 14 +
  (m.path_distance % 2 ^ 6) * 2 ^ 8 +
  m.unmatched_len % 2 ^ 8

/-- Every field of the tuple fits in the bit width the packing allots to it. -/
def MatchBase.fits (m : MatchBase) : Prop :=
  m.prefix_score < 2 ^ 31 ∧ m.word_prefix_len < 2 ^ 3 ∧ m.part_index_sum < 2 ^ 8 ∧
  m.cur_file_prefix_len < 2 ^ 6 ∧ m.path_distance < 2 ^ 6 ∧ m.unmatched_len < 2 ^ 8

/-- C6, counterexample: comparing packed scores does *not* order all field
tuples like the lexicographic comparator.  With `word_prefix_len = 8`
overflowing its 3-bit field, the tuple `(0,8,0,0,0,1)` is lexicographically
better than `(0,0,0,0,0,0)` but its packed reverse score is larger. -/
theorem c6_packed_order_counterexample :
    ¬ ∀ x y : MatchBase, (reverse_score x < reverse_score y ↔ match_base_lt x y = true) := by
  intro h
  have hxy := (h ⟨0, 8, 0, 0, 0, 1⟩ ⟨0, 0, 0, 0, 0, 0⟩).mpr (by decide)
  exact absurd hxy (by decide)

/-- C6, amended: whenever every field fits in its allotted width, comparing the
packed 64-bit reverse scores as integers coincides with the lexicographic
comparator on the field tuples. -/
theorem c6_packed_order_iff_lex (x y : MatchBase) (hx : x.fits) (hy : y.fits) :
    reverse_score x < reverse_score y ↔ match_base_lt x y = true := by
  obtain ⟨x1, x2, x3, x4, x5, x6⟩ := hx
  obtain ⟨y1, y2, y3, y4, y5, y6⟩ := hy
  simp only [reverse_score, match_base_lt,
    Nat.mod_eq_of_lt x1, Nat.mod_eq_of_lt x2, Nat.mod_eq_of_lt x3,
    Nat.mod_eq_of_lt x4, Nat.mod_eq_of_lt x5, Nat.mod_eq_of_lt x6,
    Nat.mod_eq_of_lt y1, Nat.mod_eq_of_lt y2, Nat.mod_eq_of_lt y3,
    Nat.mod_eq_of_lt y4, Nat.mod_eq_of_lt y5, Nat.mod_eq_of_lt y6]
  norm_num only
  split_ifs <;>
    (try simp only [decide_eq_true_eq, Bool.false_eq_true, iff_false, iff_true]) <;> omega

/-- C6, witness: the amended equivalence applied to two concrete in-bounds
tuples. -/
theorem c6_packed_order_iff_lex_witness :
    reverse_score ⟨0, 3, 0, 0, 0, 1⟩ < reverse_score ⟨0, 0, 0, 0, 0, 0⟩ ↔
      match_base_lt ⟨0, 3, 0, 0, 0, 1⟩ ⟨0, 0, 0, 0, 0, 0⟩ = true :=
  c6_packed_order_iff_lex ⟨0, 3, 0, 0, 0, 1⟩ ⟨0, 0, 0, 0, 0, 0⟩
    (by constructor <;> norm_num) (by constructor <;> norm_num)

/-! ### C5: the UTF-8 decoder's treatment of ill-formed bytes -/

/-- C5: evaluating the embedded decoder at the failing input.  The ill-formed
lone byte 0x80 decodes to the bare surrogate 0xdc00 and one byte is consumed
(the source's `invalid` lambda adds the outer `b0`, which is always 0), which
differs from the documented `0xdc00 + byte = 0xdc80`; well-formed sequences
still decode to one code point each. -/
theorem c5_invalid_byte_decodes_to_bare_surrogate :
    decode_utf8_string [0x80] = [0xdc00] ∧
    decode_utf8_string [0x80, 97] = [0xdc00, 97] ∧
    decode_utf8_string [0xc3, 0xa9] = [0xe9] ∧
    decode_utf8_string [0xe3, 0x81, 0x82] = [0x3042] ∧
    (0xdc00 : Nat) ≠ 0xdc00 + 0x80 := by decide

/-! ### C3: smartcase and the direction of case folding -/

/-- C3: matching is case-sensitive exactly when some query code point is
uppercase; a character match folds only the *item* code point (uppercase to
lowercase) when insensitive and compares the query code point unchanged, so
`match_char` holds iff the possibly-folded item code point equals the query
code point; when sensitive, no folding happens at all. -/
theorem c3_smartcase_match_char (query : List Nat) (i q : Nat) :
    (is_case_sensitive query = true ↔ ∃ c ∈ query, is_uppercase c = true) ∧
    (match_char (is_case_sensitive query) i q = true ↔
      match_case (is_case_sensitive query) i = q) ∧
    (is_case_sensitive query = false → is_uppercase i = true →
      (match_char (is_case_sensitive query) i q = true ↔ to_lowercase i = q)) ∧
    (is_case_sensitive query = true →
      (match_char (is_case_sensitive query) i q = true ↔ i = q)) := by
  refine ⟨?_, ?_, ?_, ?_⟩
  · simp [is_case_sensitive, List.any_eq_true]
  · cases h : is_case_sensitive query <;> simp [match_char, match_case, h]
  · intro h hu; simp [match_char, h, hu]
  · intro h; simp [match_char, h]

/-- C3, witness: concrete instances of the equivalence.  The query "F" is
case-sensitive, so the uppercase item byte 70 is not folded and only an exact
match succeeds. -/
theorem c3_smartcase_match_char_witness :
    match_char (is_case_sensitive [70]) 70 70 = true ∧
    match_char (is_case_sensitive [70]) 70 102 ≠ true :=
  ⟨((c3_smartcase_match_char [70] 70 70).2.2.2 (by decide)).mpr (by decide),
   fun h => absurd (((c3_smartcase_match_char [70] 70 102).2.2.2 (by decide)).mp h) (by decide)⟩

/-! ### C9: the component decomposition of a path -/

/-- Decomposition produced by a successful `find_first_of`: the list splits at
the first separator. -/
theorem find_sep_eq_some (l : List Nat) (p : Nat) (h : find_sep l = some p) :
    ∃ pre post, l = pre ++ path_separator :: post ∧ pre.length = p := by
  induction l generalizing p with
  | nil => simp [find_sep] at h
  | cons c rest ih =>
    by_cases hc : c = path_separator
    · simp [find_sep, hc] at h
      exact ⟨[], rest, by simp [hc], by simp [← h]⟩
    · simp [find_sep, hc] at h
      obtain ⟨q, hq, rfl⟩ := h
      obtain ⟨pre, post, rfl, hlen⟩ := ih q hq
      exact ⟨c :: pre, post, rfl, by simp [hlen]⟩

/-- The go-loop of `path_components_of` returns the empty list only on the
empty path (given adequate fuel). -/
theorem path_components_go_eq_nil (fuel : Nat) (l : List Nat) (hf : l.length ≤ fuel) :
    path_components_go fuel l = [] ↔ l = [] := by
  cases l with
  | nil => simp [path_components_go]
  | cons c rest =>
    cases fuel with
    | zero => simp at hf
    | succ f =>
      simp only [path_components_go]
      cases hs : find_sep (c :: rest) <;> simp

/-- Main inductive content behind claim C9, stated over the fuelled loop. -/
theorem path_components_go_spec : ∀ fuel (l : List Nat), l.length ≤ fuel →
    (∀ c ∈ (path_components_go fuel l).dropLast, c.getLast? = some path_separator) ∧
    (∀ k, (path_components_go fuel l).getLast? = some k →
      k.getLast? = some path_separator → l.getLast? = some path_separator) ∧
    (path_components_go fuel l).flatten = l := by
  intro fuel
  induction fuel with
  | zero =>
    intro l hl
    have : l = [] := List.eq_nil_of_length_eq_zero (Nat.le_zero.mp hl)
    subst this
    simp [path_components_go]
  | succ f ih =>
    intro l hl
    cases l with
    | nil => simp [path_components_go]
    | cons c rest =>
      cases hs : find_sep (c :: rest) with
      | none => simp [path_components_go, hs]
      | some pos =>
        obtain ⟨pre, post, hdec, hlen⟩ := find_sep_eq_some _ _ hs
        have hsplit : c :: rest = (pre ++ [path_separator]) ++ post := by
          simpa using hdec
        have htake : (c :: rest).take (pos + 1) = pre ++ [path_separator] := by
          rw [hsplit]
          exact List.take_left' (by simp [hlen])
        have hdrop : (c :: rest).drop (pos + 1) = post := by
          rw [hsplit]
          exact List.drop_left' (by simp [hlen])
        have hpost_len : post.length ≤ f := by
          have h1 := congrArg List.length hdec
          simp only [List.length_cons, List.length_append] at h1 hl
          omega
        obtain ⟨ih1, ih2, ih3⟩ := ih post hpost_len
        simp only [path_components_go, hs]
        rw [htake, hdrop]
        refine ⟨?_, ?_, ?_⟩
        · intro comp hcomp
          rcases hgo : path_components_go f post with _ | ⟨g, gs⟩
          · rw [hgo] at hcomp; simp at hcomp
          · rw [hgo] at hcomp
            rw [List.dropLast_cons₂] at hcomp
            rcases List.mem_cons.mp hcomp with rfl | hmem
            · simp
            · exact ih1 comp (by rw [hgo]; exact hmem)
        · intro k hk hksep
          by_cases hpost : post = []
          · subst hpost
            rw [hsplit]
            simp
          · have hgone : path_components_go f post ≠ [] := fun h0 =>
              hpost ((path_components_go_eq_nil f post hpost_len).mp h0)
            rcases hgoe : path_components_go f post with _ | ⟨g, gs⟩
            · exact absurd hgoe hgone
            · rw [hgoe, List.getLast?_cons_cons] at hk
              have hpost_end := ih2 k (by rw [hgoe]; exact hk) hksep
              rw [hsplit, List.getLast?_append_of_ne_nil _ hpost]
              exact hpost_end
        · rw [List.flatten_cons, ih3, ← hsplit]

/-- Concatenating the components of `path_components_of` restores the input. -/
theorem path_components_flatten (path : List Nat) :
    (path_components_of path).flatten = path :=
  (path_components_go_spec path.length path le_rfl).2.2

/-- C9: `path_components_of` returns the components left to right, every
component except possibly the last ending with the path separator; the last
component ends with the separator only if the input did; and the concatenation
of the components is exactly the input. -/
theorem c9_path_components_spec (path : List Nat) :
    (∀ c ∈ (path_components_of path).dropLast, c.getLast? = some path_separator) ∧
    (∀ l, (path_components_of path).getLast? = some l →
      l.getLast? = some path_separator → path.getLast? = some path_separator) ∧
    (path_components_of path).flatten = path :=
  path_components_go_spec path.length path le_rfl

/-- C9, witness: the decomposition of the concrete path "a/b/" (bytes
97 47 98 47). -/
theorem c9_path_components_spec_witness :
    path_components_of [97, 47, 98, 47] = [[97, 47], [98, 47]] ∧
    (∀ c ∈ (path_components_of [97, 47, 98, 47]).dropLast,
      c.getLast? = some path_separator) ∧
    (path_components_of [97, 47, 98, 47]).flatten = [97, 47, 98, 47] :=
  ⟨by decide, (c9_path_components_spec [97, 47, 98, 47]).1,
    (c9_path_components_spec [97, 47, 98, 47]).2.2⟩

/-! ### The old revision's scan (matcher.cc lines 30-215; claim C1) -/

/-- `MatcherOpts::QueryPathMode`: the old matcher's options header is absent
from src; the enum's three values appear in matcher.cc lines 41-52 and in the
spec's `query_path_mode ∈ {NORMAL, STRICT, AUTO}`. -/
inductive QueryPathMode
  | NORMAL
  | STRICT
  | AUTO
  deriving DecidableEq

/-- `require_full_part_` as derived by the old `Matcher` constructor
(matcher.cc lines 34-56): false outside path mode; in path mode NORMAL gives
false, STRICT gives true, and AUTO requires full parts iff the query contains
a path separator. -/
def require_full_part (is_path : Bool) (mode : QueryPathMode) (query : List Nat) : Bool :=
  if is_path then
    match mode with
    | .NORMAL => false
    | .STRICT => true
    | .AUTO => query.contains path_separator
  else false

/-- Right-to-left greedy consumption inside one item part (matcher.cc lines
136-161): the part's characters and the remaining query are both given
reversed (rightmost character first); returns the remaining reversed query.
The source loop breaks as soon as the query is exhausted. -/
def consume_greedy (cs : Bool) : List Nat → List Nat → List Nat
  | _, [] => []
  | [], q :: qrest => q :: qrest
  | c :: rest, q :: qrest =>
    if match_char cs c q then consume_greedy cs rest qrest
    else consume_greedy cs rest (q :: qrest)

/-- Matching of one item part including the strict-query-path-mode rollback
(matcher.cc lines 136-171): if `require_full_part_` holds and the match did
not run to a path separator or to the start of the query, the part's whole
consumption is discarded. -/
def consume_item_part (cs rf : Bool) (part_rev qrev : List Nat) : List Nat :=
  let q' := consume_greedy cs part_rev qrev
  if rf && !(q'.isEmpty || q'.headD 0 == path_separator) then qrev else q'

/-- The scan over all item parts, right to left (matcher.cc lines 104-186):
fold over the parts from the rightmost one, threading the remaining reversed
query. -/
def scan_parts (cs rf : Bool) (parts : List (List Nat)) (qrev : List Nat) : List Nat :=
  parts.foldr (fun part acc => consume_item_part cs rf part.reverse acc) qrev

/-- Verdict of the old `Matcher::match` (matcher.cc lines 75-215): path mode
splits the item at separators, otherwise the whole item is a single part; an
empty query matches immediately (lines 98-102); otherwise the query must be
fully consumed (lines 188-191). -/
def old_match_verdict (is_path : Bool) (mode : QueryPathMode) (query item : List Nat) : Bool :=
  let cs := is_case_sensitive query
  let rf := require_full_part is_path mode query
  let parts := if is_path then path_components_of item else [item]
  if query.isEmpty then true
  else (scan_parts cs rf parts query.reverse).isEmpty

/-- `match_char` succeeds exactly when the case-folded item code point equals
the query code point. -/
theorem match_char_eq_match_case (cs : Bool) (c q : Nat) :
    match_char cs c q = (match_case cs c == q) := by
  cases cs <;> simp [match_char, match_case]

/-- Consuming with an empty part leaves the query unchanged. -/
theorem consume_greedy_nil (cs : Bool) (qrev : List Nat) :
    consume_greedy cs [] qrev = qrev := by
  cases qrev <;> rfl

/-- Greedy consumption over a concatenation is consumption in two stages. -/
theorem consume_greedy_append (cs : Bool) (a b qrev : List Nat) :
    consume_greedy cs (a ++ b) qrev = consume_greedy cs b (consume_greedy cs a qrev) := by
  induction a generalizing qrev with
  | nil => rw [List.nil_append, consume_greedy_nil]
  | cons c rest ih =>
    cases qrev with
    | nil => simp [consume_greedy]
    | cons q qrest =>
      simp only [List.cons_append, consume_greedy]
      by_cases h : match_char cs c q = true
      · simp [h, ih]
      · simp [h, ih]

/-- Greedy consumption empties the query exactly when the (reversed) query is
a subsequence of the case-folded (reversed) part. -/
theorem consume_greedy_eq_nil_iff (cs : Bool) (item_rev qrev : List Nat) :
    consume_greedy cs item_rev qrev = [] ↔ qrev.Sublist (item_rev.map (match_case cs)) := by
  induction item_rev generalizing qrev with
  | nil =>
    cases qrev with
    | nil => simp [consume_greedy]
    | cons q qrest => simp [consume_greedy]
  | cons c rest ih =>
    cases qrev with
    | nil => simp [consume_greedy, List.nil_sublist]
    | cons q qrest =>
      simp only [consume_greedy, List.map_cons]
      by_cases h : match_char cs c q = true
      · have hq : match_case cs c = q := by
          have := (match_char_eq_match_case cs c q) ▸ h
          simpa using this
        rw [if_pos h, hq, ih, List.cons_sublist_cons]
      · have hq : match_case cs c ≠ q := by
          intro he
          apply h
          rw [match_char_eq_match_case, he]
          simp
        rw [if_neg h, ih]
        constructor
        · exact fun hsub => hsub.cons _
        · intro hsub
          cases hsub with
          | cons _ h2 => exact h2
          | cons₂ _ h2 => exact absurd rfl hq

/-- Whatever a greedy pass consumes is a prefix of the reversed query and a
subsequence of the case-folded reversed part. -/
theorem consume_greedy_decomp (cs : Bool) (item_rev qrev : List Nat) :
    ∃ d, qrev = d ++ consume_greedy cs item_rev qrev ∧
      d.Sublist (item_rev.map (match_case cs)) := by
  induction item_rev generalizing qrev with
  | nil =>
    cases qrev with
    | nil => exact ⟨[], by simp [consume_greedy]⟩
    | cons q qrest => exact ⟨[], by simp [consume_greedy]⟩
  | cons c rest ih =>
    cases qrev with
    | nil => exact ⟨[], by simp [consume_greedy]⟩
    | cons q qrest =>
      simp only [consume_greedy, List.map_cons]
      by_cases h : match_char cs c q = true
      · have hq : match_case cs c = q := by
          have := (match_char_eq_match_case cs c q) ▸ h
          simpa using this
        obtain ⟨d, hd, hsub⟩ := ih qrest
        refine ⟨q :: d, ?_, ?_⟩
        · rw [if_pos h, List.cons_append, ← hd]
        · rw [← hq]
          exact hsub.cons₂ _
      · obtain ⟨d, hd, hsub⟩ := ih (q :: qrest)
        exact ⟨d, by rw [if_neg h]; exact hd, hsub.cons _⟩

/-- One part's consumption (with possible strict rollback) is a prefix of the
reversed query and a subsequence of the case-folded reversed part. -/
theorem consume_item_part_decomp (cs rf : Bool) (part_rev qrev : List Nat) :
    ∃ d, qrev = d ++ consume_item_part cs rf part_rev qrev ∧
      d.Sublist (part_rev.map (match_case cs)) := by
  simp only [consume_item_part]
  split
  · exact ⟨[], by simp, List.nil_sublist _⟩
  · exact consume_greedy_decomp cs part_rev qrev

/-- The full scan's consumption is a prefix of the reversed query and a
subsequence of the case-folded reversed item. -/
theorem scan_parts_decomp (cs rf : Bool) (parts : List (List Nat)) (qrev : List Nat) :
    ∃ d, qrev = d ++ scan_parts cs rf parts qrev ∧
      d.Sublist ((parts.flatten.reverse).map (match_case cs)) := by
  induction parts generalizing qrev with
  | nil => exact ⟨[], by simp [scan_parts], List.nil_sublist _⟩
  | cons p ps ih =>
    obtain ⟨d1, hd1, hsub1⟩ := ih qrev
    obtain ⟨d2, hd2, hsub2⟩ :=
      consume_item_part_decomp cs rf p.reverse (scan_parts cs rf ps qrev)
    refine ⟨d1 ++ d2, ?_, ?_⟩
    · have : scan_parts cs rf (p :: ps) qrev =
          consume_item_part cs rf p.reverse (scan_parts cs rf ps qrev) := rfl
      rw [this, List.append_assoc, ← hd2, ← hd1]
    · have hflat : ((p :: ps).flatten.reverse).map (match_case cs) =
          (ps.flatten.reverse).map (match_case cs) ++ (p.reverse).map (match_case cs) := by
        simp
      rw [hflat]
      exact hsub1.append hsub2

/-- Without strict mode, the scan is a single greedy pass over the reversed
concatenation of the parts. -/
theorem scan_parts_no_strict (cs : Bool) (parts : List (List Nat)) (qrev : List Nat) :
    scan_parts cs false parts qrev = consume_greedy cs (parts.flatten.reverse) qrev := by
  induction parts generalizing qrev with
  | nil => simp [scan_parts, consume_greedy_nil]
  | cons p ps ih =>
    have h1 : scan_parts cs false (p :: ps) qrev =
        consume_item_part cs false p.reverse (scan_parts cs false ps qrev) := rfl
    rw [h1, ih]
    have h2 : consume_item_part cs false p.reverse
        (consume_greedy cs (ps.flatten.reverse) qrev) =
        consume_greedy cs p.reverse (consume_greedy cs (ps.flatten.reverse) qrev) := by
      simp [consume_item_part]
    rw [h2, ← consume_greedy_append]
    simp

/-- C1: the old matcher's match verdict against the subsequence criterion.
When the strict-full-part constraint is off (normal query path mode, or any
non-path match), the verdict holds iff the item's decoded code points contain
the query's as a subsequence under the case-folding rule; when strict mode is
in effect its additional path-mode constraint only restricts matches further,
so the verdict still implies that subsequence. -/
theorem c1_match_iff_subsequence (is_path : Bool) (mode : QueryPathMode)
    (query item : List Nat) :
    (require_full_part is_path mode query = false →
      (old_match_verdict is_path mode query item = true ↔
        query.Sublist (item.map (match_case (is_case_sensitive query))))) ∧
    (old_match_verdict is_path mode query item = true →
      query.Sublist (item.map (match_case (is_case_sensitive query)))) := by
  set cs := is_case_sensitive query with hcs
  have hflat : (if is_path then path_components_of item else [item]).flatten = item := by
    cases is_path with
    | false => simp
    | true => simpa using path_components_flatten item
  constructor
  · intro hrf
    unfold old_match_verdict
    rw [hrf]
    by_cases hq : query.isEmpty
    · have : query = [] := by simpa [List.isEmpty_iff] using hq
      simp [this, List.nil_sublist]
    · rw [if_neg hq]
      rw [scan_parts_no_strict, hflat]
      rw [List.isEmpty_iff, consume_greedy_eq_nil_iff]
      rw [List.map_reverse, List.reverse_sublist]
  · intro hv
    unfold old_match_verdict at hv
    by_cases hq : query.isEmpty
    · have : query = [] := by simpa [List.isEmpty_iff] using hq
      simp [this, List.nil_sublist]
    · rw [if_neg hq, List.isEmpty_iff] at hv
      obtain ⟨d, hd, hsub⟩ :=
        scan_parts_decomp cs (require_full_part is_path mode query)
          (if is_path then path_components_of item else [item]) query.reverse
      rw [hv, List.append_nil] at hd
      rw [← hd, hflat] at hsub
      rw [List.map_reverse, List.reverse_sublist] at hsub
      exact hsub

/-- C1, witness: concrete instances.  Query "fb" in AUTO path mode (no
separator, hence no strict constraint) matches "foo/bar", and the theorem
turns that verdict into the subsequence; conversely the subsequence for query
"ab" in candidate "axb" yields the verdict. -/
theorem c1_match_iff_subsequence_witness :
    [102, 98].Sublist ([102, 111, 111, 47, 98, 97, 114].map
      (match_case (is_case_sensitive [102, 98]))) ∧
    old_match_verdict true .AUTO [97, 98] [97, 120, 98] = true :=
  ⟨((c1_match_iff_subsequence true .AUTO [102, 98] [102, 111, 111, 47, 98, 97, 114]).1
      (by decide)).mp (by decide),
   ((c1_match_iff_subsequence true .AUTO [97, 98] [97, 120, 98]).1
      (by decide)).mpr (by decide)⟩

/-! ### The new template matcher (matcher.h; claims C4, C7, C8, C10)

The embedding fixes `PlatformPathTraits` (path mode, separator '/') and
`SimpleStringTraits` (raw bytes), the default traits selected by `api.h`.
Loops are written with explicit fuel; every wrapper passes enough fuel that
the loop can never exhaust it (each iteration consumes at least one
character).  Out-of-range iterator dereferences, which are undefined behavior
in the source and unreachable in its consistent states, are modelled as
failed comparisons. -/

/-- First index of character `t` in `l`, if any. -/
def find_char (t : Nat) : List Nat → Option Nat
  | [] => none
  | c :: rest => if c = t then some 0 else (find_char t rest).map (· + 1)

/-- `path_basename` (path_util.h lines 56-61) as an index: the position just
after the last path separator, or 0 when there is none. -/
def path_basename_idx (l : List Nat) : Nat :=
  match find_sep l.reverse with
  | none => 0
  | some j => l.length - j

/-- Number of path separators in a character range
(`count_if(-, is_path_separator)`). -/
def count_seps (l : List Nat) : Nat := l.countP (fun c => c == path_separator)

/-- `path_distance` (path_util.h lines 64-73): walk the two decoded strings to
their first mismatch; distance 0 exactly when both are exhausted together,
otherwise one plus the separators remaining on both sides. -/
def path_distance : List Nat → List Nat → Nat
  | [], [] => 0
  | [], b :: r2 => count_seps (b :: r2) + 1
  | a :: r1, [] => count_seps (a :: r1) + 1
  | a :: r1, b :: r2 =>
    if a = b then path_distance r1 r2
    else count_seps (a :: r1) + count_seps (b :: r2) + 1

/-- `Matcher<>::scan_match` (matcher.h lines 237-261): greedy left-to-right
subsequence test, case-folding each item character on the fly. -/
def scan_match (cs : Bool) : List Nat → List Nat → Bool
  | [], _ => true
  | _ :: _, [] => false
  | q :: qs, c :: rest =>
    if match_case cs c = q then scan_match cs qs rest else scan_match cs (q :: qs) rest

/-- `item_basename_` as computed in `check_crfile` (matcher.h lines 268-277):
a trailing path separator is skipped before taking the basename. -/
def item_basename_idx (item : List Nat) : Nat :=
  if item.getLast? = some path_separator then path_basename_idx item.dropLast
  else path_basename_idx item

/-- `crfile_ext_` (matcher.h lines 89-91) as an index: one past the rightmost
extension separator within the basename, or the basename start. -/
def crfile_ext_idx (crfile : List Nat) : Nat :=
  let cb := path_basename_idx crfile
  match find_char 46 ((crfile.drop cb).reverse) with
  | none => cb
  | some j => crfile.length - j

/-- `find_word_endings` (matcher.h lines 201-221) over a character range:
offsets, relative to the range, of the last character of each word. -/
def find_word_endings (chars : List Nat) : List Nat :=
  go chars 0 false false
where
  go : List Nat → Nat → Bool → Bool → List Nat
    | [], i, _, prevAl => if prevAl then [i - 1] else []
    | c :: rest, i, prevUp, prevAl =>
      let nextUp := is_uppercase c
      let nextAl := is_alphanumeric c
      if prevAl && (!nextAl || (!prevUp && nextUp)) then
        (i - 1) :: go rest (i + 1) nextUp nextAl
      else go rest (i + 1) nextUp nextAl

/-- Loop of the `crfile_basename_shared_words_` lambda in `check_crfile`
(matcher.h lines 283-309): walk the item basename and the crfile basename in
lockstep while equal, counting crfile word endings passed; on the last word
ending, the count is kept only if the next item character is plausibly not the
continuation of a word.  `cj` is the current absolute crfile index, `wends`
the absolute word-ending indices not yet passed, `acc` those passed. -/
def shared_words_go : List Nat → List Nat → Nat → List Nat → Nat → Nat
  | ic :: irest, cc :: crest, cj, w :: wrest, acc =>
    if ic = cc then
      if cj = w then
        match wrest with
        | [] =>
          match irest with
          | [] => acc + 1
          | nc :: _ => if !is_uppercase nc && is_alphanumeric nc then acc else acc + 1
        | w2 :: ws => shared_words_go irest crest (cj + 1) (w2 :: ws) (acc + 1)
      else shared_words_go irest crest (cj + 1) (w :: wrest) acc
    else acc
  | _, _, _, _, acc => acc

/-- `crfile_basename_shared_words_` (matcher.h lines 283-309), with the word
endings computed over `[crfile_basename_, crfile_ext_)` as in the constructor
(matcher.h lines 87-93). -/
def crfile_shared_words (item crfile : List Nat) (b : Nat) : Nat :=
  let cb := path_basename_idx crfile
  let ce := crfile_ext_idx crfile
  let wends := (find_word_endings ((crfile.drop cb).take (ce - cb))).map (· + cb)
  match wends with
  | [] => 0
  | _ :: _ => shared_words_go (item.drop b) (crfile.drop cb) cb wends 0

/-- Result of `check_crfile` (matcher.h lines 263-314) when the item is
admitted: the item basename index, the shared-word count, the path distance
to `crfile`, and the initialization of `unmatched_suffix_len_`. -/
structure CrfileStats where
  b : Nat
  shared : Nat
  dist : Nat
  usl : Nat
  deriving DecidableEq

/-- `check_crfile` (matcher.h lines 263-314): `none` when the item is rejected
for being the current file. -/
def check_crfile (match_crfile : Bool) (crfile item : List Nat) : Option CrfileStats :=
  let dist := path_distance item crfile
  if !match_crfile && dist == 0 then none
  else
    let b := item_basename_idx item
    some ⟨b, crfile_shared_words item crfile b, dist, item.length - b⟩

/-- Inner loop of `consume_path_component_match_front` (matcher.h lines
365-374): scan the item right to left from reverse-base `ib`, consuming query
characters greedily, until the component's front (the character after a path
separator, or the item start) is passed.  Returns the new reverse bases. -/
def consume_pc_loop (itemF query : List Nat) : Nat → Nat → Nat → Nat × Nat
  | 0, ib, qb => (ib, qb)
  | fuel + 1, ib, qb =>
    let qb' := if 0 < qb && itemF.getD (ib - 1) 0 == query.getD (qb - 1) 0 then qb - 1 else qb
    let ib' := ib - 1
    if ib' == 0 || itemF.getD (ib' - 1) 0 == path_separator then (ib', qb')
    else consume_pc_loop itemF query fuel ib' qb'

/-- Scanning loop behind `find_from`. -/
def find_from_go (query : List Nat) (t hi : Nat) : Nat → Nat → Nat
  | 0, _ => hi
  | fuel + 1, k => if query.getD k 0 == t then k else find_from_go query t hi fuel (k + 1)

/-- First index `k ∈ [lo, hi)` with `query[k] = t`, else `hi` (the backtracking
search of matcher.h lines 375-382). -/
def find_from (query : List Nat) (t lo hi : Nat) : Nat :=
  find_from_go query t hi (hi - lo) lo

/-- `consume_path_component_match_front` (matcher.h lines 361-383): greedy
right-to-left consumption over one path component followed by the front-of-
component backtracking that discards query characters consumed to the left of
the first one equal to the component's first character. -/
def consume_pc (itemF query : List Nat) (ib qb : Nat) : Nat × Nat :=
  let r := consume_pc_loop itemF query ib ib qb
  let pcf := itemF.getD r.1 0
  (r.1, find_from query pcf r.2 qb)

/-- The remainder loop of `check_component_match_front` (matcher.h lines
342-348): keep consuming components leftward until the query is exhausted
(true) or the item is exhausted first (false). -/
def ccmf_go (itemF query : List Nat) : Nat → Nat → Nat → Bool
  | 0, _, _ => false
  | fuel + 1, ib, qb =>
    if qb == 0 then true
    else if ib == 0 then false
    else
      let r := consume_pc itemF query ib qb
      ccmf_go itemF query fuel r.1 r.2

/-- `check_component_match_front` (matcher.h lines 328-351): returns
`qit_basename_` (the query index reached after consuming the basename) and
whether the whole query was consumed across components. -/
def check_component_match_front (itemF query : List Nat) : Nat × Bool :=
  let r := consume_pc itemF query itemF.length query.length
  (r.2, ccmf_go itemF query itemF.length r.1 r.2)

/-- The `steal` backtracking of `check_basename_match_word_prefix` (matcher.h
lines 454-464): scanning down from `qi - 1` to `lo`, the first (i.e. largest)
index holding `c`, else `qi` unchanged. -/
def steal_back (query : List Nat) (c lo qi : Nat) : Nat :=
  go (qi - lo) (qi - 1)
where
  go : Nat → Nat → Nat
    | 0, _ => qi
    | fuel + 1, k => if query.getD k 0 == c then k else go fuel (k - 1)

/-- The `consume_word_prefix` lambda of `check_basename_match_word_prefix`
(matcher.h lines 411-441): advance through the item basename to the next word
start, consuming contiguous query matches, computing and recording word-start
flags along the way.  State: item index `i`, query index `qi`, previous
character's uppercase/alphanumeric properties, word-start flags `ws` (indexed
relative to the basename start `b`), and the `can_match` flag. -/
def consume_word_pfx (itemF item query : List Nat) (b : Nat) :
    Nat → Nat → Nat → Bool → Bool → List Bool → Bool →
      Nat × Nat × Bool × Bool × List Bool
  | 0, i, qi, pu, pa, ws, _ => (i, qi, pu, pa, ws)
  | fuel + 1, i, qi, pu, pa, ws, can_match =>
    let trial : Nat × Bool × Bool :=
      if can_match || !pa then
        if itemF.getD i 0 == query.getD qi 0 then (qi + 1, can_match, qi + 1 == query.length)
        else (qi, false, false)
      else (qi, can_match, false)
    let qi' := trial.1
    let cm' := trial.2.1
    if trial.2.2 then (i, qi', pu, pa, ws)
    else
      let i' := i + 1
      if i' == itemF.length then (i', qi', pu, pa, ws)
      else
        let up := is_uppercase (item.getD i' 0)
        let al := is_alphanumeric (item.getD i' 0)
        let wstart := (!pu && up) || (!pa && al)
        let ws' := ws.set (i' - b) wstart
        if wstart then (i', qi', up, al, ws')
        else consume_word_pfx itemF item query b fuel i' qi' up al ws' cm'

/-- Outer loop of `check_basename_match_word_prefix` (matcher.h lines
444-473): word by word, optionally stealing back part of the previous word's
match, recording the query position before each word; on success the final
query-end position is appended. -/
def cbwp_go (itemF item query : List Nat) (b : Nat) :
    Nat → Nat → Nat → Bool → Bool → List Bool → List Nat →
      Option (List Nat × List Bool)
  | 0, _, _, _, _, _, _ => none
  | fuel + 1, i, qi, pu, pa, ws, qwords =>
    if qi == query.length then some (qwords ++ [qi], ws)
    else if i == itemF.length then none
    else
      let c := itemF.getD i 0
      let qi1 := if c == query.getD qi 0 then qi
        else steal_back query c (qwords.getLastD 0 + 1) qi
      let r := consume_word_pfx itemF item query b (itemF.length + 1) i qi1 pu pa ws true
      cbwp_go itemF item query b fuel r.1 r.2.1 r.2.2.1 r.2.2.2.1 r.2.2.2.2 (qwords ++ [qi1])

/-- `check_basename_match_word_prefix` (matcher.h lines 385-474): on success,
the query positions before each basename word (ending with the query end) and
the word-start flags of the basename. -/
def check_basename_word_prefixes (itemF item query : List Nat) (b qb1 : Nat) :
    Option (List Nat × List Bool) :=
  let n := itemF.length
  if b == n then none
  else if qb1 == query.length then none
  else
    let pu := is_uppercase (item.getD b 0)
    let pa := is_alphanumeric (item.getD b 0)
    let ws0 := (List.replicate (n - b) false).set 0 true
    let r := consume_word_pfx itemF item query b (n + 1) b qb1 pu pa ws0 true
    cbwp_go itemF item query b (n + 1) r.1 r.2.1 r.2.2.1 r.2.2.2.1 r.2.2.2.2 [qb1]

/-- Loop of `score_basename_word_prefix_match` (matcher.h lines 476-523).
State: item index, query index, index into the word-boundary list, current
submatch length, longest submatch, word gaps, any-match-in-word flag.
Returns the longest submatch, the word gaps, and the final item index. -/
def sbwp_go (itemF query : List Nat) (b : Nat) (qwords : List Nat) (ws : List Bool) :
    Nat → Nat → Nat → Nat → Nat → Nat → Nat → Bool → Nat × Nat × Nat
  | 0, i, _, _, cur, long, gaps, _ => (max long cur, gaps, i)
  | fuel + 1, i, qi, wi, cur, long, gaps, any =>
    if itemF.length ≤ i then (max long cur, gaps, i)
    else
      let qwl := qwords.getD wi query.length
      let hit := !(qi == qwl) && (itemF.getD i 0 == query.getD qi 0)
      if hit && (qi + 1 == query.length) then (max long (cur + 1), gaps, i)
      else
        let t : Nat × Nat × Nat × Bool :=
          if hit then (qi + 1, cur + 1, long, true) else (qi, 0, max long cur, any)
        let i' := i + 1
        let wstart := ws.getD (i' - b) false
        let gaps' := if wstart && !t.2.2.2 then gaps + 1 else gaps
        let any' := if wstart then false else t.2.2.2
        let wi' := if wstart then wi + 1 else wi
        sbwp_go itemF query b qwords ws fuel i' t.1 wi' t.2.1 t.2.2.1 gaps' any'

/-- `score_basename_word_prefix_match` (matcher.h lines 476-523): longest
submatch, word gaps and unmatched suffix length of the word-prefix pass. -/
def score_basename_word_pfx_match (itemF query : List Nat) (b qb1 : Nat)
    (qwords : List Nat) (ws : List Bool) : Nat × Nat × Nat :=
  let r := sbwp_go itemF query b qwords ws (itemF.length + 1) b qb1 1 0 0 0 false
  (r.1, r.2.1, itemF.length - r.2.2 - 1)

/-- Loop of `score_basename_greedy` (matcher.h lines 536-552): longest
submatch and final item index. -/
def sbg_go (itemF query : List Nat) : Nat → Nat → Nat → Nat → Nat → Nat × Nat
  | 0, i, _, cur, long => (max long cur, i)
  | fuel + 1, i, qi, cur, long =>
    if itemF.getD i 0 == query.getD qi 0 then
      if qi + 1 == query.length then (max long (cur + 1), i)
      else
        let i' := i + 1
        if i' == itemF.length then (max long (cur + 1), i')
        else sbg_go itemF query fuel i' (qi + 1) (cur + 1) long
    else
      let long' := max long cur
      let i' := i + 1
      if i' == itemF.length then (long', i')
      else sbg_go itemF query fuel i' qi 0 long'

/-- `score_basename_greedy` (matcher.h lines 525-558): longest submatch and
unmatched suffix length of the greedy fallback pass (`usl0` is the value
`unmatched_suffix_len_` already holds from `check_crfile`).  The source
computes `item_last - item_it - 1` in unsigned arithmetic; here natural
subtraction is used (the difference matters only in states unreachable from a
successful match). -/
def score_basename_greedy (itemF query : List Nat) (b qb1 usl0 : Nat) : Nat × Nat :=
  if b == itemF.length || qb1 == query.length then (0, usl0)
  else
    let r := sbg_go itemF query (itemF.length + 1) b qb1 0 0
    (r.1, itemF.length - r.2 - 1)

/-- The match state of `Matcher<PlatformPathTraits, SimpleStringTraits>`
after a successful `match` (matcher.h lines 639-708): the decoded (and, past
`make_item_matchcase`, case-folded) item plus every field the score and the
match positions depend on. -/
structure NmState where
  itemF : List Nat
  b : Nat
  prefix_level : Nat
  whole_basename_match : Bool
  basename_longest_submatch : Nat
  basename_match_count : Nat
  basename_word_gaps : Nat
  crfile_basename_shared_words : Nat
  crfile_path_distance : Nat
  unmatched_suffix_len : Nat
  item_len : Nat
  qit_basename : Nat
  qit_basename_words : List Nat
  word_starts : List Bool
  deriving DecidableEq

/-- `Matcher<>::match` (matcher.h lines 101-154): `none` when the item does
not match; otherwise the resulting match state.  Scoring fields are reset as
at lines 118-122; fresh (never-written) word-start flags are false. -/
def nm_match (mc : Bool) (crfile query item : List Nat) : Option NmState :=
  let cs := is_case_sensitive query
  if scan_match cs query item then
    match check_crfile mc crfile item with
    | none => none
    | some cst =>
      let st0 : NmState :=
        { itemF := item, b := cst.b, prefix_level := 0, whole_basename_match := false,
          basename_longest_submatch := 0, basename_match_count := 0, basename_word_gaps := 0,
          crfile_basename_shared_words := cst.shared, crfile_path_distance := cst.dist,
          unmatched_suffix_len := cst.usl, item_len := item.length,
          qit_basename := query.length, qit_basename_words := [],
          word_starts := List.replicate (item.length - cst.b) false }
      if query.isEmpty || item.isEmpty then some st0
      else
        let itemF := item.map (match_case cs)
        let r := check_component_match_front itemF query
        let qb1 := r.1
        let stA := { st0 with
          itemF := itemF, qit_basename := qb1,
          whole_basename_match := qb1 == path_basename_idx query,
          basename_match_count := query.length - qb1 }
        if !r.2 then some stA
        else
          match check_basename_word_prefixes itemF item query cst.b qb1 with
          | some (qwords, ws) =>
            let sc := score_basename_word_pfx_match itemF query cst.b qb1 qwords ws
            some { stA with
              prefix_level := 2, qit_basename_words := qwords,
              word_starts := ws, basename_longest_submatch := sc.1,
              basename_word_gaps := sc.2.1, unmatched_suffix_len := sc.2.2 }
          | none =>
            let sc := score_basename_greedy itemF query cst.b qb1 cst.usl
            some { stA with
              prefix_level := 1, basename_longest_submatch := sc.1,
              unmatched_suffix_len := sc.2 }
  else none

/-- `mask_to` (matcher.h lines 630-632). -/
def mask_to (x bits : Nat) : Nat := x % 2 ^ bits

/-- `penalty` (matcher.h lines 634-637) at the 64-bit `CharCount`/`size_t`
instantiations: `numeric_limits::max() - x`. -/
def penalty (x : Nat) : Nat := 2 ^ 64 - 1 - x

/-- `Matcher<>::score` (matcher.h lines 156-166).  The source combines the
masked fields with bitwise or; since the shifted fields occupy disjoint bit
ranges this equals the sum below. -/
def nm_score (st : NmState) : Nat :=
  st.prefix_level * 2 ^ 62 +
  (if st.whole_basename_match then 1 else 0) * 2 ^ 61 +
  mask_to st.basename_longest_submatch 7 * 2 ^ 54 +
  mask_to st.basename_match_count 7 * 2 ^ 47 +
  mask_to (penalty st.basename_word_gaps) 7 * 2 ^ 40 +
  mask_to st.crfile_basename_shared_words 7 * 2 ^ 33 +
  mask_to (penalty st.crfile_path_distance) 11 * 2 ^ 22 +
  mask_to (penalty st.unmatched_suffix_len) 8 * 2 ^ 14 +
  mask_to (penalty st.item_len) 14

/-! ### Match positions (matcher.h lines 180-194 and 560-628; claim C7) -/

/-- Loop of `get_match_positions_greedy` (matcher.h lines 615-628) with
absolute indices: positions recorded while walking the item from `i`,
consuming the query range `[qi, qe)` greedily. -/
def gmp_greedy_go (itemF query : List Nat) (qe : Nat) : Nat → Nat → Nat → List Nat
  | 0, _, _ => []
  | fuel + 1, i, qi =>
    if i == itemF.length || qi == qe then []
    else if itemF.getD i 0 == query.getD qi 0 then
      i :: gmp_greedy_go itemF query qe fuel (i + 1) (qi + 1)
    else gmp_greedy_go itemF query qe fuel (i + 1) qi

/-- `get_match_positions_greedy` (matcher.h lines 615-628). -/
def get_match_positions_greedy (itemF query : List Nat) (i qi qe : Nat) : List Nat :=
  gmp_greedy_go itemF query qe (itemF.length + 1) i qi

/-- `get_match_positions_component_prefix_dirpath` (matcher.h lines 569-585):
replay the component walk leftward from the basename, collecting greedy
positions per component; `query_pc_last` always equals the query base at the
iteration's entry.  The source loop has no guard against the item running out
(its states make that unreachable); the embedding stops there. -/
def gmp_dirpath_go (itemF query : List Nat) : Nat → Nat → Nat → List Nat
  | 0, _, _ => []
  | fuel + 1, ib, qb =>
    if qb == 0 then []
    else if ib == 0 then []
    else
      let r := consume_pc itemF query ib qb
      get_match_positions_greedy itemF query r.1 r.2 qb ++
        gmp_dirpath_go itemF query fuel r.1 r.2

/-- `get_match_positions_component_prefix_dirpath` (matcher.h lines 569-585). -/
def get_match_positions_dirpath (itemF query : List Nat) (b qb1 : Nat) : List Nat :=
  gmp_dirpath_go itemF query (itemF.length + 1) b qb1

/-- `get_match_positions_basename_word_prefix` (matcher.h lines 587-607).
An out-of-range query dereference (undefined behavior in the source,
unreachable from a consistent match) is modelled as a failed comparison. -/
def gmp_word_go (itemF query : List Nat) (b : Nat) (qwords : List Nat) (ws : List Bool) :
    Nat → Nat → Nat → Nat → List Nat
  | 0, _, _, _ => []
  | fuel + 1, i, qi, wi =>
    if i == itemF.length then []
    else
      let wi' := if ws.getD (i - b) false then wi + 1 else wi
      let qlast := qwords.getD wi' query.length
      match query[qi]? with
      | some qc =>
        if !(qi == qlast) && (itemF.getD i 0 == qc) then
          i :: gmp_word_go itemF query b qwords ws fuel (i + 1) (qi + 1) wi'
        else gmp_word_go itemF query b qwords ws fuel (i + 1) qi wi'
      | none => gmp_word_go itemF query b qwords ws fuel (i + 1) qi wi'

/-- `get_match_positions_basename_word_prefix` (matcher.h lines 587-607). -/
def get_match_positions_basename_word (itemF query : List Nat) (b : Nat)
    (qwords : List Nat) (ws : List Bool) (qb1 : Nat) : List Nat :=
  gmp_word_go itemF query b qwords ws (itemF.length + 1) b qb1 0

/-- `Matcher<>::match_positions` (matcher.h lines 180-194): the three cases,
with the component-level results sorted at the end as in the source. -/
def nm_match_positions (query : List Nat) (st : NmState) : List Nat :=
  if st.prefix_level == 0 then
    get_match_positions_greedy st.itemF query 0 0 query.length
  else
    let dir := get_match_positions_dirpath st.itemF query st.b st.qit_basename
    let base :=
      if st.prefix_level == 2 then
        get_match_positions_basename_word st.itemF query st.b st.qit_basename_words
          st.word_starts st.qit_basename
      else
        get_match_positions_greedy st.itemF query st.b st.qit_basename query.length
    (dir ++ base).mergeSort (fun x y => decide (x ≤ y))

/-- A within-bounds `getD` is a member of the list. -/
theorem getD_mem_of_lt (l : List Nat) (n : Nat) (h : n < l.length) : l.getD n 0 ∈ l := by
  rw [List.getD_eq_getElem _ _ h]
  exact l.getElem_mem h

/-- Safety of the greedy position loop: its positions are strictly
increasing, start at or after `i`, stay inside the item, and each records an
item character equal to a consumed query character. -/
theorem gmp_greedy_go_props (itemF query : List Nat) (qe : Nat) :
    ∀ fuel i qi, i ≤ itemF.length → qi ≤ qe → qe ≤ query.length →
      List.Pairwise (· < ·) (gmp_greedy_go itemF query qe fuel i qi) ∧
      ∀ p ∈ gmp_greedy_go itemF query qe fuel i qi,
        i ≤ p ∧ p < itemF.length ∧ itemF.getD p 0 ∈ query := by
  intro fuel
  induction fuel with
  | zero => intro i qi _ _ _; simp [gmp_greedy_go]
  | succ f ih =>
    intro i qi hi hqi hqe
    by_cases hstop : (i == itemF.length || qi == qe) = true
    · simp [gmp_greedy_go, hstop]
    · have hstop' : ¬(i = itemF.length ∨ qi = qe) := by simpa using hstop
      push_neg at hstop'
      have hin : i < itemF.length := Nat.lt_of_le_of_ne hi hstop'.1
      have hqin : qi < qe := Nat.lt_of_le_of_ne hqi hstop'.2
      by_cases hm : (itemF.getD i 0 == query.getD qi 0) = true
      · have hrec := ih (i + 1) (qi + 1) hin hqin hqe
        have hgo : gmp_greedy_go itemF query qe (f + 1) i qi =
            i :: gmp_greedy_go itemF query qe f (i + 1) (qi + 1) := by
          conv_lhs => rw [gmp_greedy_go]
          rw [if_neg hstop, if_pos hm]
        rw [hgo]
        constructor
        · rw [List.pairwise_cons]
          exact ⟨fun p hp => Nat.lt_of_succ_le (hrec.2 p hp).1, hrec.1⟩
        · intro p hp
          rcases List.mem_cons.mp hp with rfl | hp'
          · refine ⟨le_rfl, hin, ?_⟩
            have : itemF.getD p 0 = query.getD qi 0 := by simpa using hm
            rw [this]
            exact getD_mem_of_lt query qi (Nat.lt_of_lt_of_le hqin hqe)
          · obtain ⟨h1, h2, h3⟩ := hrec.2 p hp'
            exact ⟨Nat.le_of_succ_le h1, h2, h3⟩
      · have hrec := ih (i + 1) qi hin hqi hqe
        have hgo : gmp_greedy_go itemF query qe (f + 1) i qi =
            gmp_greedy_go itemF query qe f (i + 1) qi := by
          conv_lhs => rw [gmp_greedy_go]
          rw [if_neg hstop, if_neg hm]
        rw [hgo]
        refine ⟨hrec.1, fun p hp => ?_⟩
        obtain ⟨h1, h2, h3⟩ := hrec.2 p hp
        exact ⟨Nat.le_of_succ_le h1, h2, h3⟩

/-- Safety of the word-prefix position loop, with no assumption on the word
boundary data: positions are strictly increasing, within the item, and each
records an item character equal to a real query character. -/
theorem gmp_word_go_props (itemF query : List Nat) (b : Nat)
    (qwords : List Nat) (ws : List Bool) :
    ∀ fuel i qi wi, i ≤ itemF.length →
      List.Pairwise (· < ·) (gmp_word_go itemF query b qwords ws fuel i qi wi) ∧
      ∀ p ∈ gmp_word_go itemF query b qwords ws fuel i qi wi,
        i ≤ p ∧ p < itemF.length ∧ itemF.getD p 0 ∈ query := by
  intro fuel
  induction fuel with
  | zero => intro i qi wi _; simp [gmp_word_go]
  | succ f ih =>
    intro i qi wi hi
    set wi' := if ws.getD (i - b) false then wi + 1 else wi with hwi
    by_cases hstop : (i == itemF.length) = true
    · simp [gmp_word_go, hstop]
    · have hin : i < itemF.length :=
        Nat.lt_of_le_of_ne hi (by simpa using hstop)
      rcases hq : query[qi]? with _ | qc
      · have hgo : gmp_word_go itemF query b qwords ws (f + 1) i qi wi =
            gmp_word_go itemF query b qwords ws f (i + 1) qi wi' := by
          conv_lhs => rw [gmp_word_go]
          rw [if_neg hstop, hq]
        rw [hgo]
        have hrec := ih (i + 1) qi wi' hin
        refine ⟨hrec.1, fun p hp => ?_⟩
        obtain ⟨h1, h2, h3⟩ := hrec.2 p hp
        exact ⟨Nat.le_of_succ_le h1, h2, h3⟩
      · by_cases hm : (!(qi == qwords.getD wi' query.length) &&
            (itemF.getD i 0 == qc)) = true
        · have hgo : gmp_word_go itemF query b qwords ws (f + 1) i qi wi =
              i :: gmp_word_go itemF query b qwords ws f (i + 1) (qi + 1) wi' := by
            conv_lhs => rw [gmp_word_go]
            rw [if_neg hstop, hq]
            dsimp only
            rw [← hwi, if_pos (hwi ▸ hm)]
          rw [hgo]
          have hrec := ih (i + 1) (qi + 1) wi' hin
          constructor
          · rw [List.pairwise_cons]
            exact ⟨fun p hp => Nat.lt_of_succ_le (hrec.2 p hp).1, hrec.1⟩
          · intro p hp
            rcases List.mem_cons.mp hp with rfl | hp'
            · refine ⟨le_rfl, hin, ?_⟩
              have heq : itemF.getD p 0 = qc := by
                have := (Bool.and_eq_true _ _).mp hm
                simpa using this.2
              rw [heq]
              exact List.getElem?_mem hq
            · obtain ⟨h1, h2, h3⟩ := hrec.2 p hp'
              exact ⟨Nat.le_of_succ_le h1, h2, h3⟩
        · have hgo : gmp_word_go itemF query b qwords ws (f + 1) i qi wi =
              gmp_word_go itemF query b qwords ws f (i + 1) qi wi' := by
            conv_lhs => rw [gmp_word_go]
            rw [if_neg hstop, hq]
            dsimp only
            rw [← hwi, if_neg (hwi ▸ hm)]
          rw [hgo]
          have hrec := ih (i + 1) qi wi' hin
          refine ⟨hrec.1, fun p hp => ?_⟩
          obtain ⟨h1, h2, h3⟩ := hrec.2 p hp
          exact ⟨Nat.le_of_succ_le h1, h2, h3⟩

/-- Contiguous slice `[a, b)` of a list (proof infrastructure). -/
def slice (l : List Nat) (a b : Nat) : List Nat := (l.drop a).take (b - a)

/-- An empty slice. -/
theorem slice_self (l : List Nat) (a : Nat) : slice l a a = [] := by simp [slice]

/-- Extending a slice one element to the right. -/
theorem slice_append_right (l : List Nat) (a b : Nat) (hab : a ≤ b) (hb : b < l.length) :
    slice l a (b + 1) = slice l a b ++ [l.getD b 0] := by
  unfold slice
  rw [show b + 1 - a = (b - a) + 1 from by omega, List.take_succ]
  congr 1
  rw [List.getElem?_drop, show a + (b - a) = b from by omega,
    List.getElem?_eq_getElem hb]
  simp only [Option.toList_some]
  rw [List.getD_eq_getElem _ _ hb]

/-- A slice is a sublist of any right-extension of itself. -/
theorem slice_sub_right (l : List Nat) (a b c : Nat) (hbc : b ≤ c) :
    (slice l a b).Sublist (slice l a c) := by
  unfold slice
  rw [show b - a = min (b - a) (c - a) from by omega, ← List.take_take]
  exact List.take_sublist _ _

/-- Moving the left edge of a slice rightward drops a prefix. -/
theorem slice_drop_left (l : List Nat) (a j b : Nat) (haj : a ≤ j) :
    slice l j b = (slice l a b).drop (j - a) := by
  unfold slice
  rw [List.drop_take, List.drop_drop, show a + (j - a) = j from by omega,
    show b - a - (j - a) = b - j from by omega]

/-- Peeling the head off a non-empty slice. -/
theorem slice_cons (l : List Nat) (a b : Nat) (hab : a < b) (ha : a < l.length) :
    slice l a b = l.getD a 0 :: slice l (a + 1) b := by
  unfold slice
  rw [List.drop_eq_getElem_cons ha, show b - a = (b - (a + 1)) + 1 from by omega,
    List.take_succ_cons, List.getD_eq_getElem _ _ ha]

/-- The consume loop never moves its bases forward. -/
theorem consume_pc_loop_le (itemF query : List Nat) :
    ∀ fuel ib qb, (consume_pc_loop itemF query fuel ib qb).1 ≤ ib ∧
      (consume_pc_loop itemF query fuel ib qb).2 ≤ qb := by
  intro fuel
  induction fuel with
  | zero => intro ib qb; simp [consume_pc_loop]
  | succ f ih =>
    intro ib qb
    simp only [consume_pc_loop]
    split
    · constructor <;> [omega; split_ifs <;> omega]
    · refine ⟨le_trans (ih _ _).1 (by omega), le_trans (ih _ _).2 ?_⟩
      split_ifs <;> omega

/-- With fuel and a positive base, the consume loop strictly advances the
item. -/
theorem consume_pc_loop_lt (itemF query : List Nat) (fuel ib qb : Nat)
    (hf : 1 ≤ fuel) (_hib : 1 ≤ ib) :
    (consume_pc_loop itemF query fuel ib qb).1 ≤ ib - 1 := by
  cases fuel with
  | zero => omega
  | succ f =>
    simp only [consume_pc_loop]
    split
    · omega
    · exact le_trans (consume_pc_loop_le itemF query f _ _).1 le_rfl

/-- One-element slice. -/
theorem slice_singleton (l : List Nat) (a : Nat) (ha : a < l.length) :
    slice l a (a + 1) = [l.getD a 0] := by
  rw [slice_append_right l a a le_rfl ha, slice_self, List.nil_append]

/-- Unfolding of one iteration of the consume loop. -/
theorem consume_pc_loop_succ (itemF query : List Nat) (f ib qb : Nat) :
    consume_pc_loop itemF query (f + 1) (ib + 1) qb =
      if (ib == 0 || itemF.getD (ib - 1) 0 == path_separator) = true then
        (ib, if (0 < qb && itemF.getD ib 0 == query.getD (qb - 1) 0) = true
             then qb - 1 else qb)
      else consume_pc_loop itemF query f ib
        (if (0 < qb && itemF.getD ib 0 == query.getD (qb - 1) 0) = true
         then qb - 1 else qb) := by
  simp only [consume_pc_loop, Nat.add_sub_cancel]

/-- The query characters the consume loop consumes embed, in order, into the
item characters it scanned. -/
theorem consume_pc_loop_embed (itemF query : List Nat) :
    ∀ fuel ib qb, 1 ≤ ib → ib ≤ itemF.length → qb ≤ query.length →
      (slice query (consume_pc_loop itemF query fuel ib qb).2 qb).Sublist
        (slice itemF (consume_pc_loop itemF query fuel ib qb).1 ib) := by
  intro fuel
  induction fuel with
  | zero =>
    intro ib qb _ _ _
    simp only [consume_pc_loop]
    rw [slice_self]
    exact List.nil_sublist _
  | succ f ih =>
    intro ib qb hib1 hibn hqb
    obtain ⟨ib', rfl⟩ : ∃ i, ib = i + 1 := ⟨ib - 1, by omega⟩
    rw [consume_pc_loop_succ]
    by_cases hm : (0 < qb && itemF.getD ib' 0 == query.getD (qb - 1) 0) = true
    · have hqb1 : 0 < qb := by
        have := (Bool.and_eq_true _ _).mp hm
        simpa using this.1
      obtain ⟨qb', rfl⟩ : ∃ q, qb = q + 1 := ⟨qb - 1, by omega⟩
      have heq : itemF.getD ib' 0 = query.getD qb' 0 := by
        have := (Bool.and_eq_true _ _).mp hm
        simpa using this.2
      by_cases hguard : (ib' == 0 || itemF.getD (ib' - 1) 0 == path_separator) = true
      · rw [if_pos hguard, if_pos hm]
        simp only [Nat.add_sub_cancel]
        rw [slice_singleton query qb' (by omega), slice_singleton itemF ib' (by omega), heq]
      · rw [if_neg hguard, if_pos hm]
        simp only [Nat.add_sub_cancel]
        have hib1' : 1 ≤ ib' := by
          rcases Nat.eq_zero_or_pos ib' with h0 | h1
          · exfalso; apply hguard; simp [h0]
          · exact h1
        have hrec := ih ib' qb' hib1' (by omega) (by omega)
        have hle := consume_pc_loop_le itemF query f ib' qb'
        have e1 : slice query (consume_pc_loop itemF query f ib' qb').2 (qb' + 1) =
            slice query (consume_pc_loop itemF query f ib' qb').2 qb' ++
              [query.getD qb' 0] :=
          slice_append_right query _ qb' hle.2 (by omega)
        have e2 : slice itemF (consume_pc_loop itemF query f ib' qb').1 (ib' + 1) =
            slice itemF (consume_pc_loop itemF query f ib' qb').1 ib' ++
              [itemF.getD ib' 0] :=
          slice_append_right itemF _ ib' hle.1 (by omega)
        rw [e1, e2, heq]
        exact hrec.append (List.Sublist.refl _)
    · by_cases hguard : (ib' == 0 || itemF.getD (ib' - 1) 0 == path_separator) = true
      · rw [if_pos hguard, if_neg hm]
        rw [slice_self]
        exact List.nil_sublist _
      · rw [if_neg hguard, if_neg hm]
        have hib1' : 1 ≤ ib' := by
          rcases Nat.eq_zero_or_pos ib' with h0 | h1
          · exfalso; apply hguard; simp [h0]
          · exact h1
        have hrec := ih ib' qb hib1' (by omega) hqb
        exact hrec.trans (slice_sub_right itemF _ _ _ (by omega))

/-- Bounds of the backtracking search loop. -/
theorem find_from_go_bounds (query : List Nat) (t hi : Nat) :
    ∀ fuel k, k + fuel ≤ hi →
      k ≤ find_from_go query t hi fuel k ∧ find_from_go query t hi fuel k ≤ hi := by
  intro fuel
  induction fuel with
  | zero => intro k hk; simp [find_from_go]; omega
  | succ f ih =>
    intro k hk
    simp only [find_from_go]
    split
    · omega
    · have := ih (k + 1) (by omega)
      omega

/-- Bounds of `find_from`. -/
theorem find_from_bounds (query : List Nat) (t lo hi : Nat) (h : lo ≤ hi) :
    lo ≤ find_from query t lo hi ∧ find_from query t lo hi ≤ hi :=
  find_from_go_bounds query t hi (hi - lo) lo (by omega)

/-- The trimmed query base of `consume_pc` stays between the loop's base and
the entry base. -/
theorem consume_pc_le (itemF query : List Nat) (ib qb : Nat) :
    (consume_pc_loop itemF query ib ib qb).2 ≤ (consume_pc itemF query ib qb).2 ∧
      (consume_pc itemF query ib qb).2 ≤ qb := by
  have hle := (consume_pc_loop_le itemF query ib ib qb).2
  exact find_from_bounds query _ _ qb hle

/-- `consume_pc` strictly advances the item base. -/
theorem consume_pc_fst_lt (itemF query : List Nat) (ib qb : Nat) (hib : 1 ≤ ib) :
    (consume_pc itemF query ib qb).1 ≤ ib - 1 :=
  consume_pc_loop_lt itemF query ib ib qb hib hib

/-- The query characters `consume_pc` leaves consumed, after trimming, embed
into the item region it scanned. -/
theorem consume_pc_embed (itemF query : List Nat) (ib qb : Nat)
    (hib1 : 1 ≤ ib) (hibn : ib ≤ itemF.length) (hqb : qb ≤ query.length) :
    (slice query (consume_pc itemF query ib qb).2 qb).Sublist
      (slice itemF (consume_pc itemF query ib qb).1 ib) := by
  have hloop := consume_pc_loop_embed itemF query ib ib qb hib1 hibn hqb
  have hle := consume_pc_le itemF query ib qb
  have h1 : slice query (consume_pc itemF query ib qb).2 qb =
      (slice query (consume_pc_loop itemF query ib ib qb).2 qb).drop
        ((consume_pc itemF query ib qb).2 - (consume_pc_loop itemF query ib ib qb).2) :=
    slice_drop_left query _ _ qb hle.1
  rw [h1]
  exact (List.drop_sublist _ _).trans hloop

/-- Case split for a sublist of lists with exposed heads. -/
theorem sublist_cons_cases {x y : Nat} {A B : List Nat}
    (h : (x :: A).Sublist (y :: B)) :
    (x = y ∧ A.Sublist B) ∨ (x :: A).Sublist B := by
  cases h with
  | cons _ h2 => exact Or.inr h2
  | cons₂ _ h2 => exact Or.inl ⟨rfl, h2⟩

/-- If the remaining query range embeds into the item region `[i, e)`, the
greedy position loop never records a position at or beyond `e`. -/
theorem gmp_greedy_go_confine (itemF query : List Nat) (qe e : Nat) :
    ∀ fuel i qi, (slice query qi qe).Sublist (slice itemF i e) → qi ≤ qe →
      qe ≤ query.length →
      ∀ p ∈ gmp_greedy_go itemF query qe fuel i qi, p < e := by
  intro fuel
  induction fuel with
  | zero => intro i qi _ _ _; simp [gmp_greedy_go]
  | succ f ih =>
    intro i qi hsub hqi hqe
    by_cases hstop : (i == itemF.length || qi == qe) = true
    · simp [gmp_greedy_go, hstop]
    · have hstop' : ¬(i = itemF.length ∨ qi = qe) := by simpa using hstop
      push_neg at hstop'
      have hqin : qi < qe := Nat.lt_of_le_of_ne hqi hstop'.2
      have hqlen : qi < query.length := Nat.lt_of_lt_of_le hqin hqe
      have hqslice : slice query qi qe = query.getD qi 0 :: slice query (qi + 1) qe :=
        slice_cons query qi qe hqin hqlen
      have hitem_ne : slice itemF i e ≠ [] := by
        intro hnil
        rw [hqslice, hnil] at hsub
        exact absurd (List.eq_nil_of_sublist_nil hsub) (by simp)
      have hie : i < e ∧ i < itemF.length := by
        by_contra hcon
        apply hitem_ne
        unfold slice
        push_neg at hcon
        rcases Nat.lt_or_ge i e with h1 | h1
        · have := hcon h1
          rw [List.drop_eq_nil_of_le this]
          simp
        · rw [show e - i = 0 from by omega]
          simp
      have hislice : slice itemF i e = itemF.getD i 0 :: slice itemF (i + 1) e :=
        slice_cons itemF i e hie.1 hie.2
      by_cases hm : (itemF.getD i 0 == query.getD qi 0) = true
      · have hgo : gmp_greedy_go itemF query qe (f + 1) i qi =
            i :: gmp_greedy_go itemF query qe f (i + 1) (qi + 1) := by
          conv_lhs => rw [gmp_greedy_go]
          rw [if_neg hstop, if_pos hm]
        rw [hgo]
        intro p hp
        rcases List.mem_cons.mp hp with rfl | hp'
        · exact hie.1
        · have hsub' : (slice query (qi + 1) qe).Sublist (slice itemF (i + 1) e) := by
            rw [hqslice, hislice] at hsub
            rcases sublist_cons_cases hsub with ⟨_, h2⟩ | h2
            · exact h2
            · exact ((List.sublist_cons_self _ _).trans h2)
          exact ih (i + 1) (qi + 1) hsub' hqin hqe p hp'
      · have hgo : gmp_greedy_go itemF query qe (f + 1) i qi =
            gmp_greedy_go itemF query qe f (i + 1) qi := by
          conv_lhs => rw [gmp_greedy_go]
          rw [if_neg hstop, if_neg hm]
        rw [hgo]
        have hsub' : (slice query qi qe).Sublist (slice itemF (i + 1) e) := by
          rw [hqslice, hislice] at hsub
          rcases sublist_cons_cases hsub with ⟨heq2, _⟩ | h2
          · exact absurd (by rw [heq2]; simp : (itemF.getD i 0 == query.getD qi 0) = true) hm
          · rw [hqslice]; exact h2
        exact ih (i + 1) qi hsub' hqi hqe

/-- Safety of the replayed component walk: its positions are distinct, lie
left of the walk's starting base and inside the item, and each records an
item character equal to a query character. -/
theorem gmp_dirpath_props (itemF query : List Nat) :
    ∀ fuel ib qb, ib ≤ itemF.length → qb ≤ query.length →
      List.Nodup (gmp_dirpath_go itemF query fuel ib qb) ∧
      ∀ p ∈ gmp_dirpath_go itemF query fuel ib qb,
        p < ib ∧ p < itemF.length ∧ itemF.getD p 0 ∈ query := by
  intro fuel
  induction fuel with
  | zero => intro ib qb _ _; simp [gmp_dirpath_go]
  | succ f ih =>
    intro ib qb hibn hqb
    by_cases hq0 : (qb == 0) = true
    · have hgo : gmp_dirpath_go itemF query (f + 1) ib qb = [] := by
        conv_lhs => rw [gmp_dirpath_go]
        rw [if_pos hq0]
      simp [hgo]
    · by_cases hi0 : (ib == 0) = true
      · have hgo : gmp_dirpath_go itemF query (f + 1) ib qb = [] := by
          conv_lhs => rw [gmp_dirpath_go]
          rw [if_neg hq0, if_pos hi0]
        simp [hgo]
      · have hib1 : 1 ≤ ib := by
          rcases Nat.eq_zero_or_pos ib with h0 | h1
          · exact absurd (by simp [h0]) hi0
          · exact h1
        have hgo : gmp_dirpath_go itemF query (f + 1) ib qb =
            get_match_positions_greedy itemF query (consume_pc itemF query ib qb).1
              (consume_pc itemF query ib qb).2 qb ++
            gmp_dirpath_go itemF query f (consume_pc itemF query ib qb).1
              (consume_pc itemF query ib qb).2 := by
          conv_lhs => rw [gmp_dirpath_go]
          rw [if_neg hq0, if_neg hi0]
        have hr1 : (consume_pc itemF query ib qb).1 ≤ ib - 1 :=
          consume_pc_fst_lt itemF query ib qb hib1
        have hr2 : (consume_pc itemF query ib qb).2 ≤ qb :=
          (consume_pc_le itemF query ib qb).2
        have hseg := gmp_greedy_go_props itemF query qb (itemF.length + 1)
          (consume_pc itemF query ib qb).1 (consume_pc itemF query ib qb).2
          (by omega) hr2 hqb
        have hconf := gmp_greedy_go_confine itemF query qb ib (itemF.length + 1)
          (consume_pc itemF query ib qb).1 (consume_pc itemF query ib qb).2
          (consume_pc_embed itemF query ib qb hib1 hibn hqb) hr2 hqb
        have hrest := ih (consume_pc itemF query ib qb).1
          (consume_pc itemF query ib qb).2 (by omega) (by omega)
        rw [hgo]
        constructor
        · rw [List.nodup_append]
          refine ⟨hseg.1.imp (fun hlt => Nat.ne_of_lt hlt), hrest.1, ?_⟩
          intro p hp1 hp2
          have h1 := (hseg.2 p hp1).1
          have h2 := (hrest.2 p hp2).1
          omega
        · intro p hp
          rcases List.mem_append.mp hp with hp1 | hp2
          · have h1 := hseg.2 p hp1
            exact ⟨hconf p hp1, h1.2.1, h1.2.2⟩
          · have h2 := hrest.2 p hp2
            exact ⟨by omega, h2.2.1, h2.2.2⟩

/-- The basename index never exceeds the string length. -/
theorem path_basename_idx_le (l : List Nat) : path_basename_idx l ≤ l.length := by
  unfold path_basename_idx
  cases find_sep l.reverse <;> simp

/-- The item basename index never exceeds the item length. -/
theorem item_basename_idx_le (item : List Nat) :
    item_basename_idx item ≤ item.length := by
  unfold item_basename_idx
  split
  · refine le_trans (path_basename_idx_le _) ?_
    simp [List.length_dropLast]
  · exact path_basename_idx_le item

/-- The basename query index computed by `check_component_match_front` is a
valid query position. -/
theorem ccmf_fst_le (itemF query : List Nat) :
    (check_component_match_front itemF query).1 ≤ query.length :=
  (consume_pc_le itemF query itemF.length query.length).2

/-- The admitted-item statistics of `check_crfile` carry the item basename
index. -/
theorem check_crfile_some_b (mc : Bool) (crfile item : List Nat) (cst : CrfileStats)
    (h : check_crfile mc crfile item = some cst) :
    cst.b = item_basename_idx item := by
  simp only [check_crfile] at h
  split at h
  · exact absurd h (by simp)
  · rw [← Option.some.inj h]

/-- Shape of the state delivered by a successful `match`: the basename index
and basename query position are in range, and the stored item is the decoded
candidate — case-folded except on the early empty-query/empty-item path,
where the positions are trivially empty. -/
theorem nm_match_some_facts (mc : Bool) (crfile query item : List Nat) (st : NmState)
    (h : nm_match mc crfile query item = some st) :
    st.b ≤ item.length ∧ st.qit_basename ≤ query.length ∧
      ((st.prefix_level = 0 ∧ st.itemF = item ∧ (query = [] ∨ item = [])) ∨
        st.itemF = item.map (match_case (is_case_sensitive query))) := by
  simp only [nm_match] at h
  by_cases hs : scan_match (is_case_sensitive query) query item = true
  · rw [if_pos hs] at h
    cases hcc : check_crfile mc crfile item with
    | none => rw [hcc] at h; exact absurd h (by simp)
    | some cst =>
      rw [hcc] at h
      have hb : cst.b = item_basename_idx item := check_crfile_some_b mc crfile item cst hcc
      have hble : cst.b ≤ item.length := hb ▸ item_basename_idx_le item
      dsimp only at h
      by_cases he : (query.isEmpty || item.isEmpty) = true
      · rw [if_pos he] at h
        obtain rfl := (Option.some.inj h).symm
        refine ⟨hble, le_rfl, Or.inl ⟨rfl, rfl, ?_⟩⟩
        rcases Bool.or_eq_true _ _ |>.mp he with h1 | h1
        · exact Or.inl (by simpa [List.isEmpty_iff] using h1)
        · exact Or.inr (by simpa [List.isEmpty_iff] using h1)
      · rw [if_neg he] at h
        have hq1 := ccmf_fst_le (item.map (match_case (is_case_sensitive query))) query
        by_cases hr : (!(check_component_match_front
            (item.map (match_case (is_case_sensitive query))) query).2) = true
        · rw [if_pos hr] at h
          obtain rfl := (Option.some.inj h).symm
          exact ⟨hble, hq1, Or.inr rfl⟩
        · rw [if_neg hr] at h
          cases hw : check_basename_word_prefixes
              (item.map (match_case (is_case_sensitive query))) item query cst.b
              (check_component_match_front
                (item.map (match_case (is_case_sensitive query))) query).1 with
          | none =>
            rw [hw] at h
            obtain rfl := (Option.some.inj h).symm
            exact ⟨hble, hq1, Or.inr rfl⟩
          | some pr =>
            rw [hw] at h
            obtain rfl := (Option.some.inj h).symm
            exact ⟨hble, hq1, Or.inr rfl⟩
  · rw [if_neg hs] at h
    exact absurd h (by simp)

/-- `getD` commutes with `map` at in-range indices. -/
theorem getD_map_lt (f : Nat → Nat) (l : List Nat) (p : Nat) (h : p < l.length) :
    (l.map f).getD p 0 = f (l.getD p 0) := by
  rw [List.getD_eq_getElem _ _ (by simpa using h), List.getD_eq_getElem _ _ h,
    List.getElem_map]

/-- Merging a dirpath position list (distinct, left of the basename) with a
basename position list (increasing, at or right of the basename) through the
final sort yields a strictly increasing list whose members keep their
per-position facts. -/
theorem merge_positions_props (b n : Nat) (P : Nat → Prop) (dir base : List Nat)
    (hd1 : dir.Nodup) (hd2 : ∀ p ∈ dir, p < b ∧ p < n ∧ P p)
    (hb1 : List.Pairwise (· < ·) base) (hb2 : ∀ p ∈ base, b ≤ p ∧ p < n ∧ P p) :
    List.Pairwise (· < ·) ((dir ++ base).mergeSort (fun x y => decide (x ≤ y))) ∧
      ∀ p ∈ (dir ++ base).mergeSort (fun x y => decide (x ≤ y)), p < n ∧ P p := by
  have hperm := List.mergeSort_perm (dir ++ base) (fun x y => decide (x ≤ y))
  have hnodup : (dir ++ base).Nodup := by
    rw [List.nodup_append]
    refine ⟨hd1, hb1.imp (fun h => Nat.ne_of_lt h), ?_⟩
    intro p hp1 hp2
    have h1 := (hd2 p hp1).1
    have h2 := (hb2 p hp2).1
    omega
  have hsorted := @List.sorted_mergeSort Nat (fun x y => decide (x ≤ y))
    (by intro x y z h1 h2; simp at h1 h2 ⊢; omega)
    (by intro x y; simp; omega) (dir ++ base)
  have hle : List.Sorted (· ≤ ·) ((dir ++ base).mergeSort (fun x y => decide (x ≤ y))) :=
    hsorted.imp (by simp)
  refine ⟨hle.lt_of_le (hperm.nodup_iff.mpr hnodup), ?_⟩
  intro p hp
  rcases List.mem_append.mp (hperm.mem_iff.mp hp) with h1 | h1
  · exact ⟨(hd2 p h1).2.1, (hd2 p h1).2.2⟩
  · exact ⟨(hb2 p h1).2.1, (hb2 p h1).2.2⟩

/-- C7: for every reported match, the returned match positions are strictly
increasing, every position lies in `[0, candidate length)`, and the candidate
character at each position, folded by the active case rule, equals some query
character. -/
theorem c7_match_positions (mc : Bool) (crfile query item : List Nat) (st : NmState)
    (h : nm_match mc crfile query item = some st) :
    List.Pairwise (· < ·) (nm_match_positions query st) ∧
      ∀ p ∈ nm_match_positions query st,
        p < item.length ∧
          match_case (is_case_sensitive query) (item.getD p 0) ∈ query := by
  obtain ⟨hb, hqb, hshape⟩ := nm_match_some_facts mc crfile query item st h
  rcases hshape with ⟨hp0, hF, hqe⟩ | hF
  · have hcond : (st.prefix_level == 0) = true := by simp [hp0]
    have hprops := gmp_greedy_go_props st.itemF query query.length
      (st.itemF.length + 1) 0 0 (Nat.zero_le _) (Nat.zero_le _) le_rfl
    unfold nm_match_positions
    rw [if_pos hcond]
    unfold get_match_positions_greedy
    refine ⟨hprops.1, ?_⟩
    intro p hp
    exfalso
    have h2 := hprops.2 p hp
    rcases hqe with hq | hi
    · rw [hq] at h2
      simpa using h2.2.2
    · rw [hF, hi] at h2
      simpa using h2.2.1
  · have hlen : st.itemF.length = item.length := by rw [hF, List.length_map]
    have hmemconv : ∀ p, p < st.itemF.length → st.itemF.getD p 0 ∈ query →
        p < item.length ∧
          match_case (is_case_sensitive query) (item.getD p 0) ∈ query := by
      intro p h1 h2
      have h1' : p < item.length := hlen ▸ h1
      refine ⟨h1', ?_⟩
      rw [hF, getD_map_lt _ _ _ h1'] at h2
      exact h2
    by_cases hc : (st.prefix_level == 0) = true
    · have hprops := gmp_greedy_go_props st.itemF query query.length
        (st.itemF.length + 1) 0 0 (Nat.zero_le _) (Nat.zero_le _) le_rfl
      unfold nm_match_positions
      rw [if_pos hc]
      unfold get_match_positions_greedy
      exact ⟨hprops.1, fun p hp =>
        hmemconv p (hprops.2 p hp).2.1 (hprops.2 p hp).2.2⟩
    · have hbF : st.b ≤ st.itemF.length := hlen ▸ hb
      have hdirP := gmp_dirpath_props st.itemF query (st.itemF.length + 1)
        st.b st.qit_basename hbF hqb
      have hd2 : ∀ p ∈ gmp_dirpath_go st.itemF query (st.itemF.length + 1)
            st.b st.qit_basename,
          p < st.b ∧ p < item.length ∧
            match_case (is_case_sensitive query) (item.getD p 0) ∈ query := by
        intro p hp
        have h1 := hdirP.2 p hp
        have h2 := hmemconv p h1.2.1 h1.2.2
        exact ⟨h1.1, h2.1, h2.2⟩
      by_cases hc2 : (st.prefix_level == 2) = true
      · have hw := gmp_word_go_props st.itemF query st.b st.qit_basename_words
          st.word_starts (st.itemF.length + 1) st.b st.qit_basename 0 hbF
        unfold nm_match_positions
        rw [if_neg hc]
        dsimp only
        rw [if_pos hc2]
        unfold get_match_positions_dirpath get_match_positions_basename_word
        exact merge_positions_props st.b item.length
          (fun p => match_case (is_case_sensitive query) (item.getD p 0) ∈ query)
          _ _ hdirP.1 hd2 hw.1
          (fun p hp => ⟨(hw.2 p hp).1,
            (hmemconv p (hw.2 p hp).2.1 (hw.2 p hp).2.2).1,
            (hmemconv p (hw.2 p hp).2.1 (hw.2 p hp).2.2).2⟩)
      · have hg := gmp_greedy_go_props st.itemF query query.length
          (st.itemF.length + 1) st.b st.qit_basename hbF hqb le_rfl
        unfold nm_match_positions
        rw [if_neg hc]
        dsimp only
        rw [if_neg hc2]
        unfold get_match_positions_dirpath get_match_positions_greedy
        exact merge_positions_props st.b item.length
          (fun p => match_case (is_case_sensitive query) (item.getD p 0) ∈ query)
          _ _ hdirP.1 hd2 hg.1
          (fun p hp => ⟨(hg.2 p hp).1,
            (hmemconv p (hg.2 p hp).2.1 (hg.2 p hp).2.2).1,
            (hmemconv p (hg.2 p hp).2.1 (hg.2 p hp).2.2).2⟩)

/-- Witness for C7: the query "fb" against the item "foo/bar". -/
theorem c7_match_positions_witness :
    List.Pairwise (· < ·)
      (nm_match_positions [102, 98]
        ((nm_match false [] [102, 98] [102, 111, 111, 47, 98, 97, 114]).get (by decide))) ∧
      ∀ p ∈ nm_match_positions [102, 98]
          ((nm_match false [] [102, 98] [102, 111, 111, 47, 98, 97, 114]).get (by decide)),
        p < ([102, 111, 111, 47, 98, 97, 114] : List Nat).length ∧
          match_case (is_case_sensitive [102, 98])
            ([102, 111, 111, 47, 98, 97, 114].getD p 0) ∈ [102, 98] :=
  c7_match_positions false [] [102, 98] [102, 111, 111, 47, 98, 97, 114] _
    (Option.some_get (by decide)).symm

/-! ### C4 and C10: crfile admission -/

/-- With `match_crfile = false`, path distance 0 to `crfile` makes
`check_crfile` fail and hence `match` reject, whatever `scan` said. -/
theorem nm_match_none_of_dist_zero (query crfile item : List Nat)
    (h : path_distance item crfile = 0) :
    nm_match false crfile query item = none := by
  have hc : check_crfile false crfile item = none := by
    simp [check_crfile, h]
  by_cases hs : scan_match (is_case_sensitive query) query item = true
  · simp [nm_match, hs, hc]
  · simp [nm_match, hs]

/-- C4: a candidate at path distance 0 from `crfile` is rejected by `match`
when `match_crfile = false`, and consequently never survives the per-item
match filter for any candidate list. -/
theorem c4_crfile_zero_distance_rejected (query crfile item : List Nat)
    (h : path_distance item crfile = 0) :
    nm_match false crfile query item = none ∧
    ∀ L : List (List Nat),
      item ∉ L.filter (fun it => (nm_match false crfile query it).isSome) := by
  have hnone := nm_match_none_of_dist_zero query crfile item h
  refine ⟨hnone, ?_⟩
  intro L hmem
  rw [List.mem_filter, hnone] at hmem
  simp at hmem

/-- C4, witness: the candidate equal to `crfile` ("a" both) is rejected and
filtered out. -/
theorem c4_crfile_zero_distance_rejected_witness :
    nm_match false [97] [] [97] = none ∧
    [97] ∉ ([[97], [98]] : List (List Nat)).filter
      (fun it => (nm_match false [97] [] it).isSome) :=
  ⟨(c4_crfile_zero_distance_rejected [] [97] [97] (by decide)).1,
   (c4_crfile_zero_distance_rejected [] [97] [97] (by decide)).2 [[97], [98]]⟩

/-- C10: with default options (`match_crfile = false`) and an empty `crfile`,
the empty candidate is rejected — even for an empty query — because its path
distance to the empty `crfile` is 0; and every non-empty candidate is
unaffected: its verdict is exactly the scan verdict. -/
theorem c10_empty_crfile_empty_candidate (query : List Nat) :
    nm_match false [] query [] = none ∧
    path_distance [] [] = 0 ∧
    ∀ item : List Nat, item ≠ [] →
      (nm_match false [] query item).isSome =
        scan_match (is_case_sensitive query) query item := by
  refine ⟨nm_match_none_of_dist_zero query [] [] rfl, rfl, ?_⟩
  intro item hne
  obtain ⟨a, r, rfl⟩ := List.exists_cons_of_ne_nil hne
  have hd : path_distance (a :: r) [] = count_seps (a :: r) + 1 := rfl
  have hc : check_crfile false [] (a :: r) =
      some ⟨item_basename_idx (a :: r),
        crfile_shared_words (a :: r) [] (item_basename_idx (a :: r)),
        count_seps (a :: r) + 1, (a :: r).length - item_basename_idx (a :: r)⟩ := by
    simp [check_crfile, hd]
  by_cases hs : scan_match (is_case_sensitive query) query (a :: r) = true
  · rw [hs]
    simp only [nm_match, hs, hc, if_true]
    split
    · rfl
    · split
      · rfl
      · split <;> rfl
  · rw [Bool.not_eq_true] at hs
    rw [hs]
    simp [nm_match, hs]

/-- C10, witness: the empty candidate is rejected for the empty query; the
non-empty candidate "a" passes the crfile check and matches by scan. -/
theorem c10_empty_crfile_empty_candidate_witness :
    nm_match false [] [] [] = none ∧
    (nm_match false [] [] [97]).isSome = scan_match (is_case_sensitive []) [] [97] :=
  ⟨(c10_empty_crfile_empty_candidate []).1,
   (c10_empty_crfile_empty_candidate []).2.2 [97] (by decide)⟩

/-! ### C8: the empty query -/

/-- Score of an empty-query match against an empty `crfile`, as a function of
the candidate's path distance, basename length and total length alone (the
other scorer fields are all zero in that state). -/
def empty_query_score (dist usl len : Nat) : Nat :=
  mask_to (penalty 0) 7 * 2 ^ 40 +
  mask_to (penalty dist) 11 * 2 ^ 22 +
  mask_to (penalty usl) 8 * 2 ^ 14 +
  mask_to (penalty len) 14

/-- C8, counterexample: with an empty query and no `crfile`, the empty
candidate does *not* match, and two matched candidates ("a" and "a/b") carry
different scores, so the ranking is not by sort key alone. -/
theorem c8_empty_query_counterexample :
    nm_match false [] [] [] = none ∧
    (nm_match false [] [] [97]).isSome = true ∧
    (nm_match false [] [] [97, 47, 98]).isSome = true ∧
    (nm_match false [] [] [97]).map nm_score ≠
      (nm_match false [] [] [97, 47, 98]).map nm_score := by decide

/-- C8, amended: with an empty query and an empty `crfile`, every *non-empty*
candidate matches (the empty candidate is rejected by the crfile check), and
a matched candidate's score is a function of its path distance from the empty
`crfile`, its basename length and its total length alone — so candidates
agreeing on those statistics tie on score and are ordered by sort key. -/
theorem c8_empty_query_amended (item : List Nat) (hne : item ≠ []) :
    (nm_match false [] [] item).isSome = true ∧
    (nm_match false [] [] item).map nm_score =
      some (empty_query_score (path_distance item [])
        (item.length - item_basename_idx item) item.length) := by
  obtain ⟨a, r, rfl⟩ := List.exists_cons_of_ne_nil hne
  have hd : path_distance (a :: r) [] = count_seps (a :: r) + 1 := rfl
  have hc : check_crfile false [] (a :: r) =
      some ⟨item_basename_idx (a :: r),
        crfile_shared_words (a :: r) [] (item_basename_idx (a :: r)),
        count_seps (a :: r) + 1, (a :: r).length - item_basename_idx (a :: r)⟩ := by
    simp [check_crfile, hd]
  have hsw : crfile_shared_words (a :: r) [] (item_basename_idx (a :: r)) = 0 := rfl
  have hscan : scan_match false [] (a :: r) = true := rfl
  simp only [nm_match, hscan, if_true, hc, hsw, List.isEmpty_cons, is_case_sensitive,
    List.any_nil, List.isEmpty_nil, Bool.true_or, if_true, Option.map_some,
    Option.isSome_some, true_and, hd]
  simp [nm_score, empty_query_score, mask_to, penalty]

/-- C8, witness: the amended statement evaluated at the candidate "a". -/
theorem c8_empty_query_amended_witness :
    (nm_match false [] [] [97]).isSome = true ∧
    (nm_match false [] [] [97]).map nm_score =
      some (empty_query_score (path_distance [97] [])
        ([97].length - item_basename_idx [97]) [97].length) :=
  c8_empty_query_amended [97] (by decide)


/-! ### C2: the matching pipeline (api.h lines 218-329) -/


/-- The templated item of the pipeline (api.h): only its match key (the
decoded byte string handed to `Matcher::match`), its totally ordered sort
key, and an identity tag distinguishing distinct source items matter here. -/
structure Item where
  key : List Nat
  skey : Nat
  id : Nat
  deriving DecidableEq

/-- `detail::Matched` (api.h lines 221-228): a matched item with its score. -/
structure Matched where
  score : Nat
  item : Item
  deriving DecidableEq

/-- `detail::Matched::is_better` (api.h lines 230-236): higher score first,
then smaller sort key. -/
def is_better (x y : Matched) : Bool :=
  if x.score != y.score then decide (x.score > y.score)
  else decide (x.item.skey < y.item.skey)

/-- One iteration of the per-thread match loop (api.h lines 265-267):
`matcher.match(item.match_key())` followed by `matcher.score()`, at the
`Matcher<PlatformPathTraits, SimpleStringTraits>` instantiation with default
options and empty `crfile`. -/
def matched1 (query : List Nat) (it : Item) : Option Matched :=
  (nm_match false [] query it.key).map (fun st => ⟨nm_score st, it⟩)

/-- The matched items of a candidate list, in order. -/
def matchedOf (query : List Nat) (its : List Item) : List Matched :=
  its.filterMap (matched1 query)

/-- One matcher thread (api.h lines 251-283), relationally: each item is
matched in arrival order; with a limit, a new match is pushed and, past the
limit, `pop_heap` removes an element that `is_better` places above none of
the kept ones (the top of a max-heap ordered by `is_better`).  The heap's
internal vector order is abstracted by the permutation. -/
inductive ThreadRun (limit : Nat) (query : List Nat) :
    List Item → List Matched → List Matched → Prop
  | nil (ms : List Matched) : ThreadRun limit query [] ms ms
  | skip {it : Item} {rest : List Item} {ms out : List Matched} :
      matched1 query it = none →
      ThreadRun limit query rest ms out →
      ThreadRun limit query (it :: rest) ms out
  | keep {it : Item} {rest : List Item} {ms out : List Matched} {m : Matched} :
      matched1 query it = some m →
      (limit = 0 ∨ ms.length + 1 ≤ limit) →
      ThreadRun limit query rest (ms ++ [m]) out →
      ThreadRun limit query (it :: rest) ms out
  | evict {it : Item} {rest : List Item} {ms msk out : List Matched} {w m : Matched} :
      matched1 query it = some m →
      limit ≠ 0 →
      limit < ms.length + 1 →
      (ms ++ [m]).Perm (msk ++ [w]) →
      (∀ x ∈ msk, is_better w x = false) →
      ThreadRun limit query rest msk out →
      ThreadRun limit query (it :: rest) ms out

/-- The sort-and-limit stage (api.h lines 304-311), relationally by the
contracts of `std::partial_sort` and `std::sort`: the output is sorted by
`is_better` (no later element is better than an earlier one); with a binding
limit it keeps `limit` elements and every discarded element is no better
than any kept one; otherwise it is a permutation of the input. -/
def GlobalOut (limit : Nat) (all out : List Matched) : Prop :=
  List.Pairwise (fun a b => is_better b a = false) out ∧
  ∃ dropped : List Matched, all.Perm (out ++ dropped) ∧
    (∀ w ∈ dropped, ∀ m ∈ out, is_better w m = false) ∧
    (if limit ≠ 0 ∧ limit < all.length then out.length = limit else dropped = [])

/-- `detail::for_each_match` (api.h lines 241-329): the candidates are
partitioned among threads, each thread produces its limited match list, the
per-thread lists are concatenated, sorted and limited, and the items are
emitted in order. -/
def PipelineRun (limit : Nat) (query : List Nat)
    (parts : List (List Item)) (out : List Item) : Prop :=
  ∃ tms : List (List Matched),
    List.Forall₂ (fun part ms => ThreadRun limit query part [] ms) parts tms ∧
    ∃ gout : List Matched, GlobalOut limit tms.flatten gout ∧
      out = gout.map (fun m => m.item)


/-- Arithmetic reading of a failed `is_better` comparison. -/
theorem is_better_false_iff (x y : Matched) : is_better x y = false ↔
    (x.score < y.score ∨ (x.score = y.score ∧ y.item.skey ≤ x.item.skey)) := by
  unfold is_better
  by_cases h : x.score = y.score
  · simp [h]
  · simp [h]
    omega

/-- Arithmetic reading of a successful `is_better` comparison. -/
theorem is_better_true_iff (x y : Matched) : is_better x y = true ↔
    (y.score < x.score ∨ (x.score = y.score ∧ x.item.skey < y.item.skey)) := by
  unfold is_better
  by_cases h : x.score = y.score
  · simp [h]
  · simp [h]

/-- The complement of `is_better` is transitive (it is a total preorder). -/
theorem not_better_trans (a b c : Matched)
    (h1 : is_better a b = false) (h2 : is_better b c = false) :
    is_better a c = false := by
  rw [is_better_false_iff] at h1 h2 ⊢
  omega

/-- Anything at least as good as a strictly better element is itself
strictly better. -/
theorem better_of_ge_of_better (w x m : Matched)
    (h1 : is_better w x = false) (h2 : is_better w m = true) :
    is_better x m = true := by
  rw [is_better_false_iff] at h1
  rw [is_better_true_iff] at h2 ⊢
  omega

/-- `is_better` is irreflexive. -/
theorem is_better_irrefl (m : Matched) : is_better m m = false := by
  rw [is_better_false_iff]
  omega

/-- No candidates, no matches. -/
theorem matchedOf_nil (query : List Nat) : matchedOf query [] = [] := rfl

/-- A non-matching head contributes nothing. -/
theorem matchedOf_cons_none {query : List Nat} {it : Item} (its : List Item)
    (h : matched1 query it = none) :
    matchedOf query (it :: its) = matchedOf query its := by
  simp [matchedOf, List.filterMap_cons, h]

/-- A matching head contributes its matched record. -/
theorem matchedOf_cons_some {query : List Nat} {it : Item} {m : Matched} (its : List Item)
    (h : matched1 query it = some m) :
    matchedOf query (it :: its) = m :: matchedOf query its := by
  simp [matchedOf, List.filterMap_cons, h]

/-- `matchedOf` distributes over concatenation. -/
theorem matchedOf_append (query : List Nat) (a b : List Item) :
    matchedOf query (a ++ b) = matchedOf query a ++ matchedOf query b :=
  List.filterMap_append a b _

/-- Without a limit a thread keeps every match, in order. -/
theorem ThreadRun_spec0 (query : List Nat) :
    ∀ {items : List Item} {ms out : List Matched}, ThreadRun 0 query items ms out →
      out = ms ++ matchedOf query items := by
  intro items ms out h
  induction h with
  | nil ms => simp [matchedOf]
  | skip h1 _ ih => rw [ih, matchedOf_cons_none _ h1]
  | keep h1 _ _ ih => rw [ih, matchedOf_cons_some _ h1]; simp
  | evict _ h2 _ _ _ _ _ => exact absurd rfl h2

/-- Two sorted permutations of each other are equal when no two of their
elements tie. -/
theorem sorted_unique (l1 : List Matched) :
    ∀ l2 : List Matched, l1.Perm l2 →
      List.Pairwise (fun a b => is_better b a = false) l1 →
      List.Pairwise (fun a b => is_better b a = false) l2 →
      (∀ a ∈ l1, ∀ b ∈ l2, is_better a b = false → is_better b a = false → a = b) →
      l1 = l2 := by
  induction l1 with
  | nil => intro l2 hperm _ _ _; exact hperm.nil_eq 
  | cons a t ih =>
    intro l2 hperm hs1 hs2 hanti
    cases l2 with
    | nil => exact absurd hperm.length_eq (by simp)
    | cons b t2 =>
      have hab : a = b := by
        by_cases he : a = b
        · exact he
        · have ha2 : a ∈ b :: t2 := hperm.subset (by simp)
          have hb1 : b ∈ a :: t := hperm.symm.subset (by simp)
          have ha2' : a ∈ t2 := by
            rcases List.mem_cons.mp ha2 with h | h
            · exact absurd h he
            · exact h
          have hb1' : b ∈ t := by
            rcases List.mem_cons.mp hb1 with h | h
            · exact absurd h.symm he
            · exact h
          have h1 : is_better b a = false := (List.pairwise_cons.mp hs1).1 b hb1'
          have h2 : is_better a b = false := (List.pairwise_cons.mp hs2).1 a ha2'
          exact hanti a (by simp) b (by simp) h2 h1
      subst hab
      have ht : t = t2 := by
        refine ih t2 (hperm.cons_inv) (List.pairwise_cons.mp hs1).2
          (List.pairwise_cons.mp hs2).2 ?_
        intro x hx y hy hxy hyx
        exact hanti x (by simp [hx]) y (by simp [hy]) hxy hyx
      rw [ht]

/-- Top-selection is unique: two equal-size tie-free selections from the
same pool, each dominating its complement, are permutations of each other. -/
theorem topset_unique (M o1 d1 o2 d2 : List Matched)
    (h1 : M.Perm (o1 ++ d1)) (h2 : M.Perm (o2 ++ d2))
    (hlen : o1.length = o2.length)
    (hd1 : ∀ w ∈ d1, ∀ m ∈ o1, is_better w m = false)
    (hd2 : ∀ w ∈ d2, ∀ m ∈ o2, is_better w m = false)
    (hanti : ∀ a ∈ M, ∀ b ∈ M, is_better a b = false → is_better b a = false → a = b) :
    o1.Perm o2 := by
  by_cases hsub : o1.Subperm o2
  · exact hsub.perm_of_length_le hlen.ge
  · by_cases hsub2 : o2.Subperm o1
    · exact (hsub2.perm_of_length_le hlen.le).symm
    · rw [List.subperm_ext_iff] at hsub hsub2
      push_neg at hsub hsub2
      obtain ⟨x, hx1, hxc⟩ := hsub
      obtain ⟨y, hy2, hyc⟩ := hsub2
      have hcx := (h1.symm.trans h2).count_eq x
      rw [List.count_append, List.count_append] at hcx
      have hcy := (h1.symm.trans h2).count_eq y
      rw [List.count_append, List.count_append] at hcy
      have hxd2 : x ∈ d2 := List.count_pos_iff.mp (by omega)
      have hyd1 : y ∈ d1 := List.count_pos_iff.mp (by omega)
      have hxy : is_better x y = false := hd2 x hxd2 y hy2
      have hyx : is_better y x = false := hd1 y hyd1 x hx1
      have hxM : x ∈ M := h1.symm.subset (List.mem_append_left _ hx1)
      have hyM : y ∈ M := h2.symm.subset (List.mem_append_left _ hy2)
      have hxy' : x = y := hanti x hxM y hyM hxy hyx
      subst hxy'
      exact absurd hxc (by omega)

/-- What a limited thread run guarantees: the kept matches and the dropped
ones partition the thread's matches, at most `limit` are kept, each dropped
element is no better than every kept one, and an element no better than a
full accumulator stays no better than everything kept later. -/
theorem ThreadRun_spec (limit : Nat) (query : List Nat) (hl : limit ≠ 0) :
    ∀ {items : List Item} {ms out : List Matched}, ThreadRun limit query items ms out →
      ms.length ≤ limit →
      ∃ dropped : List Matched,
        (ms ++ matchedOf query items).Perm (out ++ dropped) ∧
        out.length ≤ limit ∧
        ms.length ≤ out.length ∧
        (∀ w ∈ dropped, ∀ m ∈ out, is_better w m = false) ∧
        (ms.length = limit → ∀ w, (∀ m ∈ ms, is_better w m = false) →
          ∀ m ∈ out, is_better w m = false) ∧
        (dropped ≠ [] → out.length = limit) := by
  intro items ms out h
  induction h with
  | nil ms =>
    intro hms
    exact ⟨[], by simp [matchedOf], hms, le_rfl, by simp,
      fun _ w hw => hw, by simp⟩
  | skip h1 _ ih =>
    intro hms
    obtain ⟨d, hperm, h2, h3, h4, h5, h6⟩ := ih hms
    exact ⟨d, by rwa [matchedOf_cons_none _ h1], h2, h3, h4, h5, h6⟩
  | keep h1 hcond hrest ih =>
    intro hms
    rename_i it rest ms' out' m
    clear hrest
    have hlen : (ms' ++ [m]).length ≤ limit := by
      rcases hcond with h | h
      · exact absurd h hl
      · simpa using h
    obtain ⟨d, hperm, h2, h3, h4, h5, h6⟩ := ih hlen
    refine ⟨d, ?_, h2, ?_, h4, ?_, h6⟩
    · rw [matchedOf_cons_some _ h1]
      have e1 : ms' ++ m :: matchedOf query rest =
          (ms' ++ [m]) ++ matchedOf query rest := by simp
      rw [e1]
      exact hperm
    · simp at h3
      omega
    · intro hfull
      rcases hcond with h | h
      · exact absurd h hl
      · exact absurd hfull (by omega)
  | evict h1 hl2 hlt hpm hdom hrest ih =>
    intro hms
    rename_i it rest ms' msk out' w m
    clear hrest
    have hlenpm := hpm.length_eq
    simp at hlenpm
    have hmsk : msk.length ≤ limit := by omega
    obtain ⟨d, hperm, h2, h3, h4, h5, h6⟩ := ih hmsk
    have hmsfull : ms'.length = limit := by omega
    have hmskfull : msk.length = limit := by omega
    have hwout : ∀ x ∈ out', is_better w x = false := by
      intro x hx
      exact h5 hmskfull w hdom x hx
    refine ⟨w :: d, ?_, h2, by omega, ?_, ?_, ?_⟩
    · rw [matchedOf_cons_some _ h1]
      have e1 : ms' ++ m :: matchedOf query rest =
          (ms' ++ [m]) ++ matchedOf query rest := by simp
      rw [e1]
      have p1 : ((ms' ++ [m]) ++ matchedOf query rest).Perm
          ((msk ++ [w]) ++ matchedOf query rest) := hpm.append_right _
      have p2 : ((msk ++ [w]) ++ matchedOf query rest).Perm
          ((msk ++ matchedOf query rest) ++ [w]) := by
        rw [List.append_assoc, List.append_assoc]
        exact List.Perm.append_left msk List.perm_append_comm
      have p3 : ((msk ++ matchedOf query rest) ++ [w]).Perm ((out' ++ d) ++ [w]) :=
        hperm.append_right _
      have p4 : ((out' ++ d) ++ [w]).Perm (out' ++ (w :: d)) := by
        rw [List.append_assoc]
        exact List.Perm.append_left out' List.perm_append_comm
      exact ((p1.trans p2).trans p3).trans p4
    · intro w' hw'
      rcases List.mem_cons.mp hw' with rfl | hw'
      · exact hwout
      · exact h4 w' hw'
    · intro _ v hv x hx
      have hvmsk : ∀ y ∈ msk, is_better v y = false := by
        intro y hy
        have hymem : y ∈ ms' ++ [m] := hpm.symm.subset (List.mem_append_left _ hy)
        rcases List.mem_append.mp hymem with hyms | hym
        · exact hv y hyms
        · have hym' : y = m := by simpa using hym
          subst hym'
          by_cases hmms : y ∈ ms'
          · exact hv y hmms
          · have hcnt := hpm.count_eq y
            rw [List.count_append, List.count_append] at hcnt
            have hc0 : List.count y ms' = 0 := List.count_eq_zero.mpr hmms
            have hcm : List.count y [y] = 1 := by simp
            have hwm : w ≠ y := by
              intro he
              subst he
              have hc1 : 1 ≤ List.count w msk := List.count_pos_iff.mpr hy
              have hc2 : List.count w [w] = 1 := by simp
              omega
            have hwms : w ∈ ms' := by
              have hwmem : w ∈ ms' ++ [y] := hpm.symm.subset (by simp)
              rcases List.mem_append.mp hwmem with hh | hh
              · exact hh
              · exact absurd (by simpa using hh) hwm
            exact not_better_trans v w y (hv w hwms) (hdom y hy)
      exact h5 hmskfull v hvmsk x hx
    · intro _
      omega

/-- Exchanging the middle blocks of a double concatenation is a
permutation. -/
theorem append_swap_perm (x y z t : List Matched) :
    ((x ++ y) ++ (z ++ t)).Perm ((x ++ z) ++ (y ++ t)) := by
  rw [List.append_assoc, List.append_assoc]
  refine List.Perm.append_left x ?_
  rw [← List.append_assoc, ← List.append_assoc]
  exact List.Perm.append_right t List.perm_append_comm

/-- The per-thread phase: thread outputs plus dropped matches partition the
matches of all candidates, every thread output respects the limit, and each
dropped match is dominated by some full thread output. -/
theorem threads_spec (limit : Nat) (query : List Nat) (hl : limit ≠ 0) :
    ∀ (parts : List (List Item)) (tms : List (List Matched)),
      List.Forall₂ (fun part ms => ThreadRun limit query part [] ms) parts tms →
      ∃ D : List Matched,
        (matchedOf query parts.flatten).Perm (tms.flatten ++ D) ∧
        (∀ o ∈ tms, o.length ≤ limit) ∧
        (∀ w ∈ D, ∃ o ∈ tms, o.length = limit ∧ ∀ m ∈ o, is_better w m = false) := by
  intro parts tms h
  induction h with
  | nil => exact ⟨[], by simp [matchedOf], by simp, by simp⟩
  | cons h1 h2 ih =>
    rename_i a b l1 l2
    obtain ⟨D', hperm', hlen', hdom'⟩ := ih
    obtain ⟨d, hperm, hout, _, hdom, _, hfull⟩ :=
      ThreadRun_spec limit query hl h1 (by simp)
    refine ⟨d ++ D', ?_, ?_, ?_⟩
    · rw [List.flatten_cons, matchedOf_append, List.flatten_cons]
      have hp1 : (matchedOf query a ++ matchedOf query l1.flatten).Perm
          ((b ++ d) ++ (l2.flatten ++ D')) :=
        List.Perm.append (by simpa using hperm) hperm'
      exact hp1.trans (append_swap_perm b d l2.flatten D')
    · intro o ho
      rcases List.mem_cons.mp ho with rfl | ho
      · exact hout
      · exact hlen' o ho
    · intro w hw
      rcases List.mem_append.mp hw with hw | hw
      · exact ⟨b, by simp, hfull (List.ne_nil_of_mem hw), hdom w hw⟩
      · obtain ⟨o, ho, h3, h4⟩ := hdom' w hw
        exact ⟨o, by simp [ho], h3, h4⟩

/-- A member list's multiplicities embed into the flattened list. -/
theorem count_le_of_mem_flatten (o : List Matched) (tms : List (List Matched))
    (ho : o ∈ tms) (x : Matched) :
    List.count x o ≤ List.count x tms.flatten := by
  obtain ⟨s, t, rfl⟩ := List.append_of_mem ho
  rw [List.flatten_append, List.flatten_cons]
  rw [List.count_append, List.count_append]
  omega

/-- A member list is no longer than the flattened list. -/
theorem length_le_of_mem_flatten (o : List Matched) (tms : List (List Matched))
    (ho : o ∈ tms) : o.length ≤ tms.flatten.length := by
  obtain ⟨s, t, rfl⟩ := List.append_of_mem ho
  rw [List.flatten_append, List.flatten_cons]
  simp
  omega

/-- Without a limit the concatenated thread outputs are exactly the matches
of all candidates. -/
theorem threads_spec0 (query : List Nat) :
    ∀ (parts : List (List Item)) (tms : List (List Matched)),
      List.Forall₂ (fun part ms => ThreadRun 0 query part [] ms) parts tms →
      tms.flatten = matchedOf query parts.flatten := by
  intro parts tms h
  induction h with
  | nil => simp [matchedOf]
  | cons h1 h2 ih =>
    rename_i a b l1 l2
    rw [List.flatten_cons, List.flatten_cons, matchedOf_append, ih]
    have hb : b = [] ++ matchedOf query a := ThreadRun_spec0 query h1
    rw [hb]
    simp

/-- The emitted match records of any limited pipeline run: a sorted
selection of min(limit, number of matches) records dominating everything
left out. -/
theorem pipeline_out_spec (limit : Nat) (query : List Nat) (hl : limit ≠ 0)
    (L : List Item) (parts : List (List Item)) (hparts : parts.flatten.Perm L)
    (tms : List (List Matched)) (gout : List Matched)
    (hF : List.Forall₂ (fun part ms => ThreadRun limit query part [] ms) parts tms)
    (hG : GlobalOut limit tms.flatten gout) :
    ∃ DD : List Matched,
      (matchedOf query L).Perm (gout ++ DD) ∧
      (∀ w ∈ DD, ∀ m ∈ gout, is_better w m = false) ∧
      gout.length = min limit (matchedOf query L).length ∧
      List.Pairwise (fun a b => is_better b a = false) gout := by
  obtain ⟨D, hMp, hto, hDdom⟩ := threads_spec limit query hl parts tms hF
  obtain ⟨hsort, dg, hgperm, hgdom, hcond⟩ := hG
  have hfl : (matchedOf query parts.flatten).Perm (matchedOf query L) :=
    List.Perm.filterMap _ hparts
  have hMpL : (matchedOf query L).Perm (tms.flatten ++ D) := hfl.symm.trans hMp
  have hbig : (matchedOf query L).Perm (gout ++ (dg ++ D)) := by
    refine hMpL.trans ?_
    have h1 : (tms.flatten ++ D).Perm ((gout ++ dg) ++ D) := hgperm.append_right D
    refine h1.trans ?_
    rw [List.append_assoc]
  have hdomAll : ∀ w ∈ dg ++ D, ∀ m ∈ gout, is_better w m = false := by
    intro w hw m hm
    rcases List.mem_append.mp hw with hw | hw
    · exact hgdom w hw m hm
    · by_contra hbet'
      have hbet : is_better w m = true := by
        cases hb : is_better w m
        · exact absurd hb hbet'
        · rfl
      obtain ⟨o, hoin, holen, hodom⟩ := hDdom w hw
      have hbetter : ∀ x ∈ o, is_better x m = true := fun x hx =>
        better_of_ge_of_better w x m (hodom x hx) hbet
      have hmo : m ∉ o := by
        intro hmo
        have h1 := hbetter m hmo
        rw [is_better_irrefl m] at h1
        exact Bool.noConfusion h1
      have hcdg : ∀ x ∈ o, List.count x dg = 0 := by
        intro x hx
        rw [List.count_eq_zero]
        intro hxdg
        have h1 := hgdom x hxdg m hm
        rw [hbetter x hx] at h1
        exact Bool.noConfusion h1
      have hsub : (o ++ [m]).Subperm gout := by
        rw [List.subperm_ext_iff]
        intro x hx
        have hcall : List.count x tms.flatten = List.count x gout + List.count x dg := by
          have h1 := hgperm.count_eq x
          rwa [List.count_append] at h1
        rcases List.mem_append.mp hx with hxo | hxm
        · have h1 : List.count x o ≤ List.count x tms.flatten :=
            count_le_of_mem_flatten o tms hoin x
          have h2 : List.count x dg = 0 := hcdg x hxo
          have h3 : x ≠ m := by
            intro he
            subst he
            exact hmo hxo
          rw [List.count_append]
          have h4 : List.count x [m] = 0 := by
            rw [List.count_eq_zero]
            simpa using fun he => h3 he
          omega
        · have hxm' : x = m := by simpa using hxm
          subst hxm'
          have h1 : List.count x o = 0 := List.count_eq_zero.mpr hmo
          have h2 : 1 ≤ List.count x gout := List.count_pos_iff.mpr hm
          rw [List.count_append]
          have h4 : List.count x [x] = 1 := by simp
          omega
      have hlen2 : limit + 1 ≤ gout.length := by
        have h1 := hsub.length_le
        rw [List.length_append, holen] at h1
        simpa using h1
      by_cases hc : limit ≠ 0 ∧ limit < tms.flatten.length
      · rw [if_pos hc] at hcond
        omega
      · rw [if_neg hc] at hcond
        subst hcond
        have hgl : gout.length = tms.flatten.length := by
          have h1 := hgperm.length_eq
          rw [List.length_append, List.length_nil] at h1
          omega
        push_neg at hc
        have h2 := hc hl
        omega
  refine ⟨dg ++ D, hbig, hdomAll, ?_, hsort⟩
  by_cases hc : limit ≠ 0 ∧ limit < tms.flatten.length
  · rw [if_pos hc] at hcond
    have h1 := hMpL.length_eq
    rw [List.length_append] at h1
    omega
  · rw [if_neg hc] at hcond
    subst hcond
    push_neg at hc
    have hfl_le : tms.flatten.length ≤ limit := hc hl
    have hgl : gout.length = tms.flatten.length := by
      have h1 := hgperm.length_eq
      rw [List.length_append, List.length_nil] at h1
      omega
    cases D with
    | nil =>
      have h1 := hMpL.length_eq
      rw [List.length_append, List.length_nil] at h1
      omega
    | cons w Dt =>
      obtain ⟨o, hoin, holen, _⟩ := hDdom w (by simp)
      have h2 : o.length ≤ tms.flatten.length := length_le_of_mem_flatten o tms hoin
      have h1 := hMpL.length_eq
      rw [List.length_append, List.length_cons] at h1
      omega

/-- C2 counterexample: with limit 1, empty query and two equal-scoring,
equal-sort-key candidates, a one-thread run may emit the second candidate
while a two-thread run may emit the first, so the emitted ranked list is not
a function of (query, options, candidate list) alone. -/
theorem c2_thread_count_counterexample :
    PipelineRun 1 [] [[⟨[97], 5, 0⟩, ⟨[97], 5, 1⟩]] [⟨[97], 5, 1⟩] ∧
    PipelineRun 1 [] [[⟨[97], 5, 0⟩], [⟨[97], 5, 1⟩]] [⟨[97], 5, 0⟩] ∧
    [(⟨[97], 5, 1⟩ : Item)] ≠ [⟨[97], 5, 0⟩] := by
  have hx : matched1 [] (⟨[97], 5, 0⟩ : Item) =
      some ⟨139646562451454, ⟨[97], 5, 0⟩⟩ := by decide
  have hy : matched1 [] (⟨[97], 5, 1⟩ : Item) =
      some ⟨139646562451454, ⟨[97], 5, 1⟩⟩ := by decide
  refine ⟨?_, ?_, by decide⟩
  · refine ⟨[[⟨139646562451454, ⟨[97], 5, 1⟩⟩]], ?_, ⟨[⟨139646562451454, ⟨[97], 5, 1⟩⟩], ⟨?_, [], ?_, ?_, ?_⟩, rfl⟩⟩
    · refine List.Forall₂.cons ?_ List.Forall₂.nil
      refine ThreadRun.keep hx (Or.inr (by decide)) ?_
      refine ThreadRun.evict hy (by decide) (by decide)
        (show (((([] : List Matched)) ++ [(⟨139646562451454, ⟨[97], 5, 0⟩⟩ : Matched)]) ++
            [(⟨139646562451454, ⟨[97], 5, 1⟩⟩ : Matched)]).Perm
          ([(⟨139646562451454, ⟨[97], 5, 1⟩⟩ : Matched)] ++
            [(⟨139646562451454, ⟨[97], 5, 0⟩⟩ : Matched)]) from by decide)
        (by decide) (ThreadRun.nil _)
    · decide
    · decide
    · decide
    · decide
  · refine ⟨[[⟨139646562451454, ⟨[97], 5, 0⟩⟩], [⟨139646562451454, ⟨[97], 5, 1⟩⟩]], ?_,
      ⟨[⟨139646562451454, ⟨[97], 5, 0⟩⟩], ⟨?_, [⟨139646562451454, ⟨[97], 5, 1⟩⟩], ?_, ?_, ?_⟩, rfl⟩⟩
    · refine List.Forall₂.cons ?_ (List.Forall₂.cons ?_ List.Forall₂.nil)
      · exact ThreadRun.keep hx (Or.inr (by decide)) (ThreadRun.nil _)
      · exact ThreadRun.keep hy (Or.inr (by decide)) (ThreadRun.nil _)
    · decide
    · decide
    · decide
    · decide


/-- C2 amended: for a fixed query, options and candidate list in which no
two matched candidates tie (equal packed score and equal sort key only for
the same item), every two pipeline runs — any thread counts, any candidate
partitions, any heap and sort tie choices — emit the same ranked item
list. -/
theorem c2_pipeline_deterministic (limit : Nat) (query : List Nat) (L : List Item)
    (parts1 parts2 : List (List Item)) (out1 out2 : List Item)
    (hp1 : parts1.flatten.Perm L) (hp2 : parts2.flatten.Perm L)
    (htf : ∀ x ∈ matchedOf query L, ∀ y ∈ matchedOf query L,
      is_better x y = false → is_better y x = false → x = y)
    (h1 : PipelineRun limit query parts1 out1)
    (h2 : PipelineRun limit query parts2 out2) :
    out1 = out2 := by
  obtain ⟨tms1, hF1, g1, hG1, ho1⟩ := h1
  obtain ⟨tms2, hF2, g2, hG2, ho2⟩ := h2
  subst ho1
  subst ho2
  by_cases hl : limit = 0
  · subst hl
    obtain ⟨hsort1, dg1, hgperm1, _, hcond1⟩ := hG1
    obtain ⟨hsort2, dg2, hgperm2, _, hcond2⟩ := hG2
    rw [if_neg (by simp)] at hcond1 hcond2
    subst hcond1
    subst hcond2
    rw [List.append_nil] at hgperm1 hgperm2
    have e1 : tms1.flatten = matchedOf query parts1.flatten := threads_spec0 query _ _ hF1
    have e2 : tms2.flatten = matchedOf query parts2.flatten := threads_spec0 query _ _ hF2
    have hg1 : g1.Perm (matchedOf query L) := by
      refine hgperm1.symm.trans ?_
      rw [e1]
      exact List.Perm.filterMap _ hp1
    have hg2 : g2.Perm (matchedOf query L) := by
      refine hgperm2.symm.trans ?_
      rw [e2]
      exact List.Perm.filterMap _ hp2
    have hperm12 : g1.Perm g2 := hg1.trans hg2.symm
    have he : g1 = g2 :=
      sorted_unique g1 g2 hperm12 hsort1 hsort2
        (fun a ha b hb => htf a (hg1.subset ha) b (hg2.subset hb))
    rw [he]
  · obtain ⟨DD1, hb1, hd1, hl1, hs1⟩ :=
      pipeline_out_spec limit query hl L parts1 hp1 tms1 g1 hF1 hG1
    obtain ⟨DD2, hb2, hd2, hl2, hs2⟩ :=
      pipeline_out_spec limit query hl L parts2 hp2 tms2 g2 hF2 hG2
    have hlen : g1.length = g2.length := by rw [hl1, hl2]
    have hperm12 : g1.Perm g2 :=
      topset_unique (matchedOf query L) g1 DD1 g2 DD2 hb1 hb2 hlen hd1 hd2 htf
    have he : g1 = g2 :=
      sorted_unique g1 g2 hperm12 hs1 hs2
        (fun a ha b hb => htf a (hb1.symm.subset (List.mem_append_left _ ha))
          b (hb2.symm.subset (List.mem_append_left _ hb)))
    rw [he]

/-- Witness for C2 amended: limit 1, empty query, two tie-free candidates,
run once on one thread and once on two. -/
theorem c2_pipeline_deterministic_witness :
    ([(⟨[97], 0, 0⟩ : Item)] : List Item) = [⟨[97], 0, 0⟩] :=
  c2_pipeline_deterministic 1 [] [⟨[97], 0, 0⟩, ⟨[98], 1, 1⟩]
    [[⟨[97], 0, 0⟩, ⟨[98], 1, 1⟩]] [[⟨[97], 0, 0⟩], [⟨[98], 1, 1⟩]]
    [⟨[97], 0, 0⟩] [⟨[97], 0, 0⟩]
    (by decide) (by decide) (by decide)
    (by
      have hx : matched1 [] (⟨[97], 0, 0⟩ : Item) =
          some ⟨139646562451454, ⟨[97], 0, 0⟩⟩ := by decide
      have hy : matched1 [] (⟨[98], 1, 1⟩ : Item) =
          some ⟨139646562451454, ⟨[98], 1, 1⟩⟩ := by decide
      refine ⟨[[⟨139646562451454, ⟨[97], 0, 0⟩⟩]], ?_,
        ⟨[⟨139646562451454, ⟨[97], 0, 0⟩⟩], ⟨?_, [], ?_, ?_, ?_⟩, rfl⟩⟩
      · refine List.Forall₂.cons ?_ List.Forall₂.nil
        refine ThreadRun.keep hx (Or.inr (by decide)) ?_
        refine ThreadRun.evict hy (by decide) (by decide)
          (show (((([] : List Matched)) ++ [(⟨139646562451454, ⟨[97], 0, 0⟩⟩ : Matched)]) ++
              [(⟨139646562451454, ⟨[98], 1, 1⟩⟩ : Matched)]).Perm
            ([(⟨139646562451454, ⟨[97], 0, 0⟩⟩ : Matched)] ++
              [(⟨139646562451454, ⟨[98], 1, 1⟩⟩ : Matched)]) from by decide)
          (by decide) (ThreadRun.nil _)
      · decide
      · decide
      · decide
      · decide)
    (by
      have hx : matched1 [] (⟨[97], 0, 0⟩ : Item) =
          some ⟨139646562451454, ⟨[97], 0, 0⟩⟩ := by decide
      have hy : matched1 [] (⟨[98], 1, 1⟩ : Item) =
          some ⟨139646562451454, ⟨[98], 1, 1⟩⟩ := by decide
      refine ⟨[[⟨139646562451454, ⟨[97], 0, 0⟩⟩], [⟨139646562451454, ⟨[98], 1, 1⟩⟩]], ?_,
        ⟨[⟨139646562451454, ⟨[97], 0, 0⟩⟩],
          ⟨?_, [⟨139646562451454, ⟨[98], 1, 1⟩⟩], ?_, ?_, ?_⟩, rfl⟩⟩
      · refine List.Forall₂.cons ?_ (List.Forall₂.cons ?_ List.Forall₂.nil)
        · exact ThreadRun.keep hx (Or.inr (by decide)) (ThreadRun.nil _)
        · exact ThreadRun.keep hy (Or.inr (by decide)) (ThreadRun.nil _)
      · decide
      · decide
      · decide
      · decide)

end Cpsm
